import Mathlib

/-!
Verification of the spatial-acceleration core of the lustre-rs path tracer.

The development shallowly embeds the Rust sources (src/bounds.rs, src/tree.rs,
src/hittables.rs, src/hittables/list.rs, src/hittables/quad.rs,
src/hittables/transform.rs, src/render.rs, src/main.rs) into Lean.

Numeric model: `f32` values are modelled as exact rationals (`ℚ`).  Where the
source can produce IEEE-754 infinities or NaNs (the reciprocal of a zero ray
direction inside the branchless box test, the `offset` division by a
zero-width centroid box, the saturating `as usize` cast), an explicit
four-variant type `F` (finite / +inf / -inf / NaN) mirrors the IEEE semantics
used by the code, including Rust's `f32::min` / `f32::max` NaN-dropping
behaviour and the saturating float-to-integer cast.  Rational arithmetic is
exact, so rounding is not modelled; every concrete input used below is dyadic
and small enough that all the decisions taken by the code (branches, bin
indices, comparisons) coincide with real `f32` evaluation.  `f32::MAX` is the
exact rational 2^128 - 2^104.
-/

set_option maxRecDepth 2000

namespace Lustre

/-- The exact rational value of `f32::MAX` = (2 - 2^-23) * 2^127
= 2^128 - 2^104 (written through an integer literal, which evaluates
shallowly). -/
def f32MAX : ℚ := ((340282346638528859811704183484516925440 : ℤ) : ℚ)

/-- The integer literal above is 2^128 - 2^104. -/
theorem f32MAX_eq : f32MAX = 2 ^ 128 - 2 ^ 104 := by norm_num [f32MAX]

/-- The exact rational value of `f32::MIN` = -`f32::MAX`. -/
def f32MIN : ℚ := -f32MAX

/-- Axis enum from src/utils.rs. -/
inductive Axis where
  | X
  | Y
  | Z
deriving DecidableEq, Repr

/-- A 3-vector of (idealized) f32 components, standing in for `glam::Vec3A`. -/
structure V3 where
  x : ℚ
  y : ℚ
  z : ℚ
deriving DecidableEq, Repr

namespace V3

/-- Componentwise minimum (`Vec3A::min`). -/
def cmin (a b : V3) : V3 := ⟨min a.x b.x, min a.y b.y, min a.z b.z⟩

/-- Componentwise maximum (`Vec3A::max`). -/
def cmax (a b : V3) : V3 := ⟨max a.x b.x, max a.y b.y, max a.z b.z⟩

/-- Componentwise subtraction. -/
def sub (a b : V3) : V3 := ⟨a.x - b.x, a.y - b.y, a.z - b.z⟩

/-- Componentwise addition. -/
def add (a b : V3) : V3 := ⟨a.x + b.x, a.y + b.y, a.z + b.z⟩

/-- Scalar multiplication. -/
def smul (k : ℚ) (a : V3) : V3 := ⟨k * a.x, k * a.y, k * a.z⟩

/-- Componentwise negation. -/
def neg (a : V3) : V3 := ⟨-a.x, -a.y, -a.z⟩

/-- Dot product. -/
def dot (a b : V3) : ℚ := a.x * b.x + a.y * b.y + a.z * b.z

/-- Cross product (`Vec3A::cross`). -/
def cross (a b : V3) : V3 :=
  ⟨a.y * b.z - a.z * b.y, a.z * b.x - a.x * b.z, a.x * b.y - a.y * b.x⟩

/-- Componentwise absolute value (`Vec3A::abs`). -/
def vabs (a : V3) : V3 := ⟨|a.x|, |a.y|, |a.z|⟩

/-- Indexing a vector by an `Axis` (impl Index<Axis> for Vec3A in src/utils.rs). -/
def axis (a : V3) : Axis → ℚ
  | Axis.X => a.x
  | Axis.Y => a.y
  | Axis.Z => a.z

/-- `Vec3A::splat`. -/
def splat (q : ℚ) : V3 := ⟨q, q, q⟩

/-- Componentwise less-or-equal (`cmple(..).all()`). -/
def leq (a b : V3) : Prop := a.x ≤ b.x ∧ a.y ≤ b.y ∧ a.z ≤ b.z

instance : DecidablePred fun p : V3 × V3 => leq p.1 p.2 := by
  intro p; unfold leq; infer_instance

instance (a b : V3) : Decidable (leq a b) := by
  unfold leq; infer_instance

/-- All components are finite f32 values, i.e. within ±`f32MAX`. -/
def finite (a : V3) : Prop :=
  |a.x| ≤ f32MAX ∧ |a.y| ≤ f32MAX ∧ |a.z| ≤ f32MAX

instance (a : V3) : Decidable (finite a) := by
  unfold finite; infer_instance

end V3

/-- Axis-aligned bounding box from src/bounds.rs. -/
structure BoundingBox where
  min : V3
  max : V3
deriving DecidableEq, Repr

namespace BoundingBox

/-- `BoundingBox::new`: sorts the two corners componentwise. -/
def new (p0 p1 : V3) : BoundingBox := ⟨p0.cmin p1, p0.cmax p1⟩

/-- `BoundingBox::new_unchecked`. -/
def new_unchecked (mn mx : V3) : BoundingBox := ⟨mn, mx⟩

/-- `BoundingBox::union`: componentwise min of mins, max of maxes. -/
def union (a b : BoundingBox) : BoundingBox := ⟨a.min.cmin b.min, a.max.cmax b.max⟩

/-- `BoundingBox::add_point`. -/
def add_point (a : BoundingBox) (p : V3) : BoundingBox := ⟨a.min.cmin p, a.max.cmax p⟩

/-- `BoundingBox::diagonal`. -/
def diagonal (a : BoundingBox) : V3 := a.max.sub a.min

/-- `BoundingBox::surface_area` = 2(dx dy + dx dz + dy dz). -/
def surface_area (a : BoundingBox) : ℚ :=
  2 * (a.diagonal.x * a.diagonal.y + a.diagonal.x * a.diagonal.z +
    a.diagonal.y * a.diagonal.z)

/-- `BoundingBox::longest_axis` from src/bounds.rs lines 128-138. -/
def longest_axis (a : BoundingBox) : Axis :=
  if a.diagonal.x > a.diagonal.y ∧ a.diagonal.x > a.diagonal.z then Axis.X
  else if a.diagonal.y > a.diagonal.z then Axis.Y
  else Axis.Z

/-- `BoundingBox::centroid` = 0.5 min + 0.5 max. -/
def centroid (a : BoundingBox) : V3 := (V3.smul (1/2) a.min).add (V3.smul (1/2) a.max)

/-- `impl Default for BoundingBox`: the sentinel box min = f32::MAX, max = f32::MIN. -/
def sentinel : BoundingBox := ⟨V3.splat f32MAX, V3.splat f32MIN⟩

/-- Point containment (`BoundingBox::inside`). -/
def inside (a : BoundingBox) (p : V3) : Prop := V3.leq p a.max ∧ V3.leq a.min p

instance (a : BoundingBox) (p : V3) : Decidable (inside a p) := by
  unfold inside; infer_instance

/-- Box inclusion: every point of the first box is constrained between the
second box's corners.  Used to state coverage invariants. -/
def subset (a b : BoundingBox) : Prop := V3.leq b.min a.min ∧ V3.leq a.max b.max

/-- Both corners of the box are finite f32 values. -/
def finite (a : BoundingBox) : Prop := a.min.finite ∧ a.max.finite

instance (a : BoundingBox) : Decidable (finite a) := by
  unfold finite; infer_instance

end BoundingBox

/-- C7 counterexample input: a cube whose three extents are equal. -/
def c7Cube : BoundingBox := BoundingBox.new ⟨0, 0, 0⟩ ⟨1, 1, 1⟩

/-- C7 — counterexample.  The claim says that with all three extents equal
`longest_axis` returns X; the code returns Z (the first branch needs X
strictly largest, the second needs Y strictly larger than Z). -/
theorem c7_counterexample :
    c7Cube.longest_axis = Axis.Z ∧ Axis.Z ≠ Axis.X := by
  refine ⟨?_, by simp⟩
  norm_num [c7Cube, BoundingBox.new, BoundingBox.longest_axis, BoundingBox.diagonal,
    V3.sub, V3.cmin, V3.cmax]

/-- C7 (amended): `longest_axis` returns X exactly when the X extent is
strictly the greatest; otherwise Y exactly when the Y extent strictly exceeds
the Z extent; otherwise Z.  Ties are therefore resolved toward the later
axis: an all-equal box yields Z, and equal X and Y extents exceeding Z yield
Y. -/
theorem c7_amended : ∀ a : BoundingBox,
    (a.longest_axis = Axis.X ↔
      (a.diagonal.x > a.diagonal.y ∧ a.diagonal.x > a.diagonal.z)) ∧
    (a.longest_axis = Axis.Y ↔
      (¬(a.diagonal.x > a.diagonal.y ∧ a.diagonal.x > a.diagonal.z) ∧
        a.diagonal.y > a.diagonal.z)) ∧
    (a.longest_axis = Axis.Z ↔
      (¬(a.diagonal.x > a.diagonal.y ∧ a.diagonal.x > a.diagonal.z) ∧
        ¬a.diagonal.y > a.diagonal.z)) := by
  intro a
  unfold BoundingBox.longest_axis
  by_cases h1 : a.diagonal.x > a.diagonal.y ∧ a.diagonal.x > a.diagonal.z
  · simp [h1]
  · by_cases h2 : a.diagonal.y > a.diagonal.z <;> simp [h1, h2]

/-- C7 — witness: the amended characterization applied to a concrete box with
a strictly longest X axis. -/
theorem c7_amended_witness :
    (BoundingBox.new ⟨0, 0, 0⟩ ⟨3, 2, 1⟩).longest_axis = Axis.X :=
  (c7_amended (BoundingBox.new ⟨0, 0, 0⟩ ⟨3, 2, 1⟩)).1.mpr
    (by norm_num [BoundingBox.new, BoundingBox.diagonal, V3.sub, V3.cmin, V3.cmax])

/-- C8: the sentinel ("default") box is a left identity for `union` on every
box with finite f32 corners, and adding any finite point to the sentinel
yields exactly that point as a degenerate box. -/
theorem c8_union_sentinel_identity :
    (∀ B : BoundingBox, B.finite → BoundingBox.sentinel.union B = B) ∧
    (∀ p : V3, p.finite → BoundingBox.sentinel.add_point p = ⟨p, p⟩) := by
  constructor
  · rintro ⟨⟨ax, ay, az⟩, ⟨bx, by_, bz⟩⟩ ⟨⟨h1, h2, h3⟩, h4, h5, h6⟩
    simp only [BoundingBox.union, BoundingBox.sentinel, V3.cmin, V3.cmax, V3.splat]
    simp only [abs_le] at h1 h2 h3 h4 h5 h6
    congr 1 <;> congr 1 <;>
      simp [f32MIN, min_eq_right, max_eq_right, h1.2, h2.2, h3.2, h4.1, h5.1, h6.1]
  · rintro ⟨px, py, pz⟩ ⟨h1, h2, h3⟩
    simp only [BoundingBox.add_point, BoundingBox.sentinel, V3.cmin, V3.cmax, V3.splat]
    simp only [abs_le] at h1 h2 h3
    congr 1 <;> congr 1 <;>
      simp [f32MIN, min_eq_right, max_eq_right, h1.1, h1.2, h2.1, h2.2, h3.1, h3.2]

/-- C8 — witness at the concrete unit box and at the origin point. -/
theorem c8_union_sentinel_identity_witness :
    BoundingBox.sentinel.union ⟨⟨0, 0, 0⟩, ⟨1, 1, 1⟩⟩ = ⟨⟨0, 0, 0⟩, ⟨1, 1, 1⟩⟩ ∧
    BoundingBox.sentinel.add_point ⟨2, 3, 4⟩ = ⟨⟨2, 3, 4⟩, ⟨2, 3, 4⟩⟩ := by
  constructor
  · exact c8_union_sentinel_identity.1 ⟨⟨0, 0, 0⟩, ⟨1, 1, 1⟩⟩
      (by norm_num [BoundingBox.finite, V3.finite, f32MAX])
  · exact c8_union_sentinel_identity.2 ⟨2, 3, 4⟩ (by norm_num [V3.finite, f32MAX])

/-- C9: `BoundingBox::new` establishes min ≤ max componentwise for arbitrary
corner order, and is symmetric in its two arguments. -/
theorem c9_new_sorts_corners : ∀ p0 p1 : V3,
    V3.leq (BoundingBox.new p0 p1).min (BoundingBox.new p0 p1).max ∧
    BoundingBox.new p0 p1 = BoundingBox.new p1 p0 := by
  intro p0 p1
  constructor
  · exact ⟨le_trans (min_le_left _ _) (le_max_left _ _),
      le_trans (min_le_left _ _) (le_max_left _ _),
      le_trans (min_le_left _ _) (le_max_left _ _)⟩
  · simp only [BoundingBox.new, V3.cmin, V3.cmax]
    congr 1 <;> congr 1 <;> first | exact min_comm _ _ | exact max_comm _ _

/-- Rust's `Iterator::reduce` with `BoundingBox::union`: `None` on an empty
iterator, otherwise a left fold starting from the first element. -/
def reduceUnion : List BoundingBox → Option BoundingBox
  | [] => none
  | b :: rest => some (rest.foldl BoundingBox.union b)

/-- `impl Hittable for Vec<T>::bounding_box` (src/hittables/list.rs lines
29-41): early-return `None` on the empty list, otherwise filter-map the
members' boxes and reduce by union.  The embedding takes the members'
`bounding_box` results directly. -/
def hittableListBoundingBox (bs : List (Option BoundingBox)) : Option BoundingBox :=
  if bs.isEmpty then none else reduceUnion bs.reduceOption

/-- Helper: the filter-mapped list of present boxes is empty exactly when
every member box is absent. -/
theorem reduceOption_eq_nil_iff_all_none (bs : List (Option BoundingBox)) :
    bs.reduceOption = [] ↔ ∀ b ∈ bs, b = none := by
  induction bs with
  | nil => simp
  | cons hd tl ih =>
    cases hd with
    | none => simpa using ih
    | some b => simp [List.reduceOption_cons_of_some]

/-- C10: the list `bounding_box` returns `None` exactly when the list is
empty or every member is unbounded; otherwise it returns the union (a left
fold of `BoundingBox::union`) of exactly the members' present boxes, the
unbounded members being ignored. -/
theorem c10_list_bounding_box : ∀ bs : List (Option BoundingBox),
    (hittableListBoundingBox bs = none ↔ bs = [] ∨ ∀ b ∈ bs, b = none) ∧
    (∀ B rest, bs.reduceOption = B :: rest →
      hittableListBoundingBox bs = some (rest.foldl BoundingBox.union B)) := by
  intro bs
  constructor
  · unfold hittableListBoundingBox
    rcases bs with _ | ⟨hd, tl⟩
    · simp
    · simp only [List.isEmpty_cons, if_neg Bool.false_ne_true, List.cons_ne_nil,
        false_or]
      rw [← reduceOption_eq_nil_iff_all_none]
      cases h : (hd :: tl).reduceOption with
      | nil => simp [reduceUnion, h]
      | cons B rest => simp [reduceUnion, h]
  · intro B rest h
    have hne : bs ≠ [] := by
      intro he; rw [he] at h; simp at h
    unfold hittableListBoundingBox
    rw [if_neg (by simpa using hne), h]
    rfl

/-- C10 — witness: a list with one bounded and one unbounded member reduces to
the bounded member's box. -/
theorem c10_list_bounding_box_witness :
    hittableListBoundingBox [some ⟨⟨0, 0, 0⟩, ⟨1, 1, 1⟩⟩, none] =
      some ⟨⟨0, 0, 0⟩, ⟨1, 1, 1⟩⟩ :=
  (c10_list_bounding_box [some ⟨⟨0, 0, 0⟩, ⟨1, 1, 1⟩⟩, none]).2 _ [] rfl

/-!
## IEEE-special values

`F32` models the f32 values that the embedded algorithms can actually
produce: exact finite rationals plus the three specials +inf, -inf and NaN
(sign of NaN and signed zero are not distinguished; the rationals' single 0
stands for +0.0).  Arithmetic on finite values is exact.
-/

/-- An f32 value: a finite (exact) rational, an infinity, or NaN. -/
inductive F32 where
  | fin : ℚ → F32
  | pinf
  | ninf
  | nan
deriving DecidableEq, Repr

namespace F32

/-- IEEE multiplication on `F32` (0 · ±inf = NaN, sign rules for infinities). -/
def mul : F32 → F32 → F32
  | nan, _ => nan
  | _, nan => nan
  | fin a, fin b => fin (a * b)
  | fin a, pinf => if 0 < a then pinf else if a < 0 then ninf else nan
  | fin a, ninf => if 0 < a then ninf else if a < 0 then pinf else nan
  | pinf, fin b => if 0 < b then pinf else if b < 0 then ninf else nan
  | ninf, fin b => if 0 < b then ninf else if b < 0 then pinf else nan
  | pinf, pinf => pinf
  | pinf, ninf => ninf
  | ninf, pinf => ninf
  | ninf, ninf => pinf

/-- IEEE addition on `F32` (+inf + -inf = NaN). -/
def add : F32 → F32 → F32
  | nan, _ => nan
  | _, nan => nan
  | fin a, fin b => fin (a + b)
  | fin _, pinf => pinf
  | fin _, ninf => ninf
  | pinf, fin _ => pinf
  | ninf, fin _ => ninf
  | pinf, pinf => pinf
  | pinf, ninf => nan
  | ninf, pinf => nan
  | ninf, ninf => ninf

/-- IEEE division on `F32` (x/0 with x≠0 gives a signed infinity, 0/0 and
inf/inf give NaN; the single rational zero is treated as +0.0). -/
def div : F32 → F32 → F32
  | nan, _ => nan
  | _, nan => nan
  | fin a, fin b =>
      if b = 0 then (if 0 < a then pinf else if a < 0 then ninf else nan)
      else fin (a / b)
  | fin _, pinf => fin 0
  | fin _, ninf => fin 0
  | pinf, fin b => if b < 0 then ninf else pinf
  | ninf, fin b => if b < 0 then pinf else ninf
  | pinf, pinf => nan
  | pinf, ninf => nan
  | ninf, pinf => nan
  | ninf, ninf => nan

/-- Rust's `f32::min`: if one argument is NaN, the other is returned. -/
def rmin : F32 → F32 → F32
  | fin a, fin b => fin (min a b)
  | fin a, pinf => fin a
  | _, ninf => ninf
  | fin a, nan => fin a
  | pinf, fin b => fin b
  | pinf, pinf => pinf
  | pinf, nan => pinf
  | ninf, _ => ninf
  | nan, y => y

/-- Rust's `f32::max`: if one argument is NaN, the other is returned. -/
def rmax : F32 → F32 → F32
  | fin a, fin b => fin (max a b)
  | fin _, pinf => pinf
  | fin a, ninf => fin a
  | fin a, nan => fin a
  | pinf, _ => pinf
  | ninf, pinf => pinf
  | ninf, fin b => fin b
  | ninf, ninf => ninf
  | ninf, nan => ninf
  | nan, y => y

/-- IEEE `≤` as a proposition (False whenever NaN is involved). -/
def fle : F32 → F32 → Prop
  | fin a, fin b => a ≤ b
  | fin _, pinf => True
  | fin _, ninf => False
  | pinf, pinf => True
  | pinf, _ => False
  | ninf, nan => False
  | ninf, _ => True
  | nan, _ => False
  | _, nan => False

instance : ∀ a b : F32, Decidable (fle a b) := by
  intro a b
  cases a <;> cases b <;> simp only [fle] <;> infer_instance

/-- IEEE `<` as a proposition (False whenever NaN is involved). -/
def flt : F32 → F32 → Prop
  | fin a, fin b => a < b
  | fin _, pinf => True
  | fin _, ninf => False
  | pinf, _ => False
  | ninf, nan => False
  | ninf, ninf => False
  | ninf, _ => True
  | nan, _ => False
  | _, nan => False

instance : ∀ a b : F32, Decidable (flt a b) := by
  intro a b
  cases a <;> cases b <;> simp only [flt] <;> infer_instance

/-- Rank used by `total_cmp`: -inf < finite < +inf < (positive) NaN.
The code never compares two NaNs or negative NaNs with `total_cmp`. -/
def rank : F32 → ℕ
  | ninf => 0
  | fin _ => 1
  | pinf => 2
  | nan => 3

/-- `f32::total_cmp` restricted to the values the embedding produces. -/
def total_cmp (x y : F32) : Ordering :=
  match x, y with
  | fin a, fin b => if a < b then Ordering.lt else if b < a then Ordering.gt else Ordering.eq
  | x, y => compare (rank x) (rank y)

end F32

/-- `f32 as usize` saturating cast (NaN to 0, truncation toward zero,
negative to 0, +inf to `usize::MAX`). -/
def usizeMAX : ℕ := 2 ^ 64 - 1

/-- The saturating float-to-usize conversion performed by `as usize`. -/
def f32toUsize : F32 → ℕ
  | F32.fin q => if q ≤ 0 then 0 else min ⌊q⌋.toNat usizeMAX
  | F32.pinf => usizeMAX
  | F32.ninf => 0
  | F32.nan => 0

/-- A 3-vector of `F32` values (used for the precomputed `inv_dir`). -/
structure V3F where
  x : F32
  y : F32
  z : F32
deriving DecidableEq, Repr

/-- `Vec3A::recip()` componentwise; 1/0 = +inf (the rational 0 is +0.0). -/
def recipV (v : Lustre.V3) : V3F :=
  ⟨if v.x = 0 then F32.pinf else F32.fin v.x⁻¹,
   if v.y = 0 then F32.pinf else F32.fin v.y⁻¹,
   if v.z = 0 then F32.pinf else F32.fin v.z⁻¹⟩

/-- A ray (src/ray.rs): origin, direction and time. -/
structure Ray where
  origin : V3
  direction : V3
  time : ℚ
deriving DecidableEq, Repr

/-- `Ray::at`: origin + t * direction. -/
def Ray.at (r : Ray) (t : ℚ) : V3 := r.origin.add (V3.smul t r.direction)

/-- One axis of the branchless slab update from `BoundingBox::hit_with_inv`:
`t_near <- min(max(t_near,t0), max(t_near,t1))`,
`t_far  <- max(min(t_far,t0), min(t_far,t1))`. -/
def slabStep (o mn mx : ℚ) (inv : F32) (s : F32 × F32) : F32 × F32 :=
  let t0 := F32.mul (F32.fin (mn - o)) inv
  let t1 := F32.mul (F32.fin (mx - o)) inv
  (F32.rmin (F32.rmax s.1 t0) (F32.rmax s.1 t1),
   F32.rmax (F32.rmin s.2 t0) (F32.rmin s.2 t1))

/-- `BoundingBox::hit_with_inv` (src/bounds.rs lines 69-88): the branchless
ray/box test; accepts on `t_near <= t_far`. -/
def hit_with_inv (bb : BoundingBox) (r : Ray) (inv : V3F) (t_min t_max : ℚ) : Prop :=
  let s1 := slabStep r.origin.x bb.min.x bb.max.x inv.x (F32.fin t_min, F32.fin t_max)
  let s2 := slabStep r.origin.y bb.min.y bb.max.y inv.y s1
  let s3 := slabStep r.origin.z bb.min.z bb.max.z inv.z s2
  F32.fle s3.1 s3.2

instance (bb : BoundingBox) (r : Ray) (inv : V3F) (a b : ℚ) :
    Decidable (hit_with_inv bb r inv a b) := by
  unfold hit_with_inv; infer_instance

/-!
## Hit records, the hittable interface, quads and transforms
-/

/-- `HitRecord` (src/hittables.rs).  The `Arc<Material>` handle is modelled
by an identity tag, enough to observe "same primitive identity". -/
structure HitRecord where
  point : V3
  normal : V3
  material : ℕ
  t : ℚ
  u : ℚ
  v : ℚ
  front_face : Bool
deriving DecidableEq, Repr

/-- `HitRecord::set_face_normal` (src/hittables.rs lines 44-54). -/
def set_face_normal (rec : HitRecord) (r : Ray) (outward_n : V3) : HitRecord :=
  if r.direction.dot outward_n < 0 then
    { rec with front_face := true, normal := outward_n }
  else
    { rec with front_face := false, normal := outward_n.neg }

/-- A hittable, semantically: its `hit` entry point and its (time-fixed)
`bounding_box` result.  This models the `dyn Hittable` trait objects the
tree and the list intersector are generic over. -/
structure Item where
  hitF : Ray → ℚ → ℚ → Option HitRecord
  bbox : Option BoundingBox

/-- One step of the list intersector's loop: the state is the running
`(rec, t_closest)` pair of src/hittables/list.rs lines 16-25. -/
def lhStep (r : Ray) (t_min : ℚ) (acc : Option HitRecord × ℚ) (it : Item) :
    Option HitRecord × ℚ :=
  match it.hitF r t_min acc.2 with
  | some rec => (some rec, rec.t)
  | none => acc

/-- `impl Hittable for Vec<T>::hit` (src/hittables/list.rs lines 15-27):
fold over the members, shrinking `t_closest` to each accepted hit's `t` and
keeping the latest accepted record. -/
def listHitItems (items : List Item) (r : Ray) (t_min t_max : ℚ) : Option HitRecord :=
  (items.foldl (lhStep r t_min) ((none : Option HitRecord), t_max)).1

/-- A quadrilateral (src/hittables/quad.rs); the material is an identity tag. -/
structure Quad where
  p0 : V3
  p1 : V3
  p2 : V3
  p3 : V3
  material : ℕ
deriving DecidableEq, Repr

/-- 2-d cross product `Quad::cross` (src/hittables/quad.rs lines 115-117). -/
def cross2 (a b : ℚ × ℚ) : ℚ := a.1 * b.2 - a.2 * b.1

/-- Numeric indexing of a vector (`point[id_u]` on `Vec3A`). -/
def vnth (v : V3) : ℕ → ℚ
  | 0 => v.x
  | 1 => v.y
  | 2 => v.z
  | _ => 0

/-- `Quad::AXIS_IDXS = [1, 2, 0, 1]`. -/
def AXIS_IDXS : ℕ → ℕ
  | 0 => 1
  | 1 => 2
  | 2 => 0
  | _ => 1

/-- `Vec3A::normalize`, exact when the squared length is a perfect rational
square; every evaluation below normalizes a vector of exactly representable
length. -/
def v3Normalize (v : V3) : V3 := V3.smul (Rat.sqrt (v.dot v))⁻¹ v

/-- `impl Hittable for Quad::bounding_box` (src/hittables/quad.rs lines
121-126): componentwise min/max of the four corners padded by ±0.0001.  The
f32 literal `0.0001` rounds to ≈1.00000005e-4; the exact 1/10000 is used
here, and no decision below depends on the 5e-12 difference. -/
def quadBoundingBox (q : Quad) : Option BoundingBox :=
  some (BoundingBox.new_unchecked
    (((q.p0.cmin q.p1).cmin q.p2).cmin q.p3 |>.sub (V3.splat (1/10000)))
    (((q.p0.cmax q.p1).cmax q.p2).cmax q.p3 |>.add (V3.splat (1/10000))))

/-- `impl Hittable for Quad::hit` (src/hittables/quad.rs lines 128-218).

The plane-intersection division is guarded: in the code a zero denominator
makes `t` a special (±inf or NaN), which the `t < t_min || t > t_max` bound
check or the NaN-poisoned `(0..=1).contains` checks then reject for every
finite window, so the result is `None`; the embedding returns `none`
directly in that case.  The t-bound check is inclusive (`t < t_min || t >
t_max` rejects), so hits at exactly `t_max` are accepted — this is what the
embedding keeps. -/
def quadHit (q : Quad) (r : Ray) (t_min t_max : ℚ) : Option HitRecord :=
  let a := q.p1.sub q.p0
  let b := q.p3.sub q.p0
  let c := q.p2.sub q.p0
  let p := r.origin.sub q.p0
  let plane_normal := a.cross b
  if r.direction.dot plane_normal = 0 then none
  else
    let t := -(p.dot plane_normal) / r.direction.dot plane_normal
    if t < t_min ∨ t > t_max then none
    else
      let point := p.add (V3.smul t r.direction)
      let abs_normal := plane_normal.vabs
      let axis_idx : ℕ :=
        if abs_normal.x > abs_normal.y ∧ abs_normal.x > abs_normal.z then 0
        else if abs_normal.y > abs_normal.z then 1
        else 2
      let id_u := AXIS_IDXS axis_idx
      let id_v := AXIS_IDXS (axis_idx + 1)
      let kp := (vnth point id_u, vnth point id_v)
      let ka := (vnth a id_u, vnth a id_v)
      let kb := (vnth b id_u, vnth b id_v)
      let kc := (vnth c id_u, vnth c id_v)
      let kg := (kc.1 - kb.1 - ka.1, kc.2 - kb.2 - ka.2)
      let k0 := cross2 kp kb
      let k1 := cross2 kp kg - vnth plane_normal axis_idx
      let k2 := cross2 (kc.1 - kb.1, kc.2 - kb.2) ka
      let uvq : Option (ℚ × ℚ) :=
        if |k2| < 1/100000 then
          some (cross2 kp ka / k1, -k0 / k1)
        else
          let w := k1 * k1 - 4 * k0 * k2
          if w < 0 then none
          else
            let w := Rat.sqrt w
            let ik2 := (2 * k2)⁻¹
            let v0 := (-k1 - w) * ik2
            let v := if 0 ≤ v0 ∧ v0 ≤ 1 then v0 else (-k1 + w) * ik2
            some ((kp.1 - ka.1 * v) / (kb.1 + kg.1 * v), v)
      match uvq with
      | none => none
      | some uv =>
        if ¬(0 ≤ uv.1 ∧ uv.1 ≤ 1) ∨ ¬(0 ≤ uv.2 ∧ uv.2 ≤ 1) then none
        else
          let normal := v3Normalize abs_normal
          some (set_face_normal
            ⟨r.at t, normal, q.material, t, uv.1, uv.2, true⟩ r normal)

/-- A quad as a hittable item. -/
def Item.ofQuad (q : Quad) : Item := ⟨quadHit q, quadBoundingBox q⟩

/-- An affine map, three rows plus a translation (`glam::Affine3A`). -/
structure Affine where
  r1 : V3
  r2 : V3
  r3 : V3
  tr : V3
deriving DecidableEq, Repr

/-- `Affine3A::transform_point3a`: matrix times point plus translation. -/
def transformPoint (m : Affine) (p : V3) : V3 :=
  ⟨m.r1.dot p + m.tr.x, m.r2.dot p + m.tr.y, m.r3.dot p + m.tr.z⟩

/-- `Affine3A::transform_vector3a`: matrix times vector, no translation. -/
def transformVector (m : Affine) (p : V3) : V3 :=
  ⟨m.r1.dot p, m.r2.dot p, m.r3.dot p⟩

/-- A `Transform` hittable instance (src/hittables/transform.rs): forward and
inverse affine maps around a contained hittable's hit function. -/
structure TransformH where
  transform : Affine
  inv_transform : Affine
  objectHit : Ray → ℚ → ℚ → Option HitRecord

/-- `Transform::from_scale_factor`: a diagonal scale and its exact inverse
(for a diagonal matrix glam's `inverse` yields exactly the reciprocal
diagonal). -/
def fromScaleFactor (s : V3) (objHit : Ray → ℚ → ℚ → Option HitRecord) : TransformH :=
  ⟨⟨⟨s.x, 0, 0⟩, ⟨0, s.y, 0⟩, ⟨0, 0, s.z⟩, ⟨0, 0, 0⟩⟩,
   ⟨⟨s.x⁻¹, 0, 0⟩, ⟨0, s.y⁻¹, 0⟩, ⟨0, 0, s.z⁻¹⟩, ⟨0, 0, 0⟩⟩,
   objHit⟩

/-- `impl Hittable for Transform::hit` (src/hittables/transform.rs lines
114-133): hit the contained object with the inverse-transformed ray, then
transform the record's point and normal forward — and then re-finalize with
`set_face_normal(&transformed_ray, rec.normal)`, i.e. against the
transformed ray and the *untransformed* inner normal, exactly as the source
does. -/
def transformHit (tg : TransformH) (r : Ray) (t_min t_max : ℚ) : Option HitRecord :=
  let transformed_ray : Ray :=
    ⟨transformPoint tg.inv_transform r.origin,
     transformVector tg.inv_transform r.direction, r.time⟩
  match tg.objectHit transformed_ray t_min t_max with
  | some rec =>
      let transformed_rec : HitRecord :=
        { rec with
          point := transformPoint tg.transform rec.point,
          normal := transformVector tg.transform rec.normal }
      some (set_face_normal transformed_rec transformed_ray rec.normal)
  | none => none

/-!
## The SAH tree (src/tree.rs)

The arena of `TreeNode`s is modelled structurally: `new_interior` allocates
the parent slot, recurses left then right, and patches the parent with the
two fresh child indices, producing a proper binary tree; `Tre` is that tree.
The recursion of `new_interior` is not structurally decreasing (and, as
established below, genuinely fails to terminate on some inputs), so the
build takes an explicit fuel and returns `none` when the fuel runs out.
-/

/-- Build-time per-item data (`ItemInfo` in src/tree.rs). -/
structure ItemInfo where
  item : Item
  bbox : Option BoundingBox
  centroid : Option V3

/-- `Tree::new` precomputation: bbox from the item, centroid from the bbox. -/
def mkInfo (it : Item) : ItemInfo := ⟨it, it.bbox, it.bbox.map BoundingBox.centroid⟩

/-- A binning bucket (`Bin` in src/tree.rs). -/
structure Bin where
  bbox : BoundingBox
  count : ℕ
deriving DecidableEq, Repr

/-- `Bin::default()`: sentinel bbox, zero count. -/
def binDefault : Bin := ⟨BoundingBox.sentinel, 0⟩

/-- `comp_bin_idx` (src/tree.rs lines 143-146): `(16.0 * off) as usize`
saturating, then clamped to `0..=15`. -/
def comp_bin_idx (off : F32) : ℕ := min (f32toUsize (F32.mul (F32.fin 16) off)) 15

/-- The binning offset of a centroid: `centroid_bbox.offset(c)[axis]`, an f32
division that can produce NaN (0/0, when the centroid box is flat along the
split axis) or an infinity. -/
def offsetAt (cb : BoundingBox) (ax : Axis) (c : V3) : F32 :=
  F32.div (F32.fin (c.axis ax - cb.min.axis ax)) (F32.fin (cb.diagonal.axis ax))

/-- The bin index assigned to one item (src/tree.rs lines 150-156): items
without a centroid use the offset `(NUM_BINS/2) as f32 = 8.0`. -/
def binOf (cb : BoundingBox) (ax : Axis) (info : ItemInfo) : ℕ :=
  comp_bin_idx (match info.centroid with
    | some c => offsetAt cb ax c
    | none => F32.fin 8)

/-- The binning loop (src/tree.rs lines 150-163): count every item into its
bin and union in its bbox when it has one. -/
def computeBins (infos : List ItemInfo) (cb : BoundingBox) (ax : Axis) : List Bin :=
  infos.foldl
    (fun bins info =>
      let idx := binOf cb ax info
      let bin := bins.getD idx binDefault
      bins.set idx
        ⟨(match info.bbox with
          | some bbox => bin.bbox.union bbox
          | none => bin.bbox), bin.count + 1⟩)
    (List.replicate 16 binDefault)

/-- The forward cost scan (src/tree.rs lines 175-184): the costs array starts
at `[f32::MAX; 15]` and each nonempty bin k adds `count_k * SA(bbox_k)` to
`costs[k]`; the running accumulator is carried exactly as in the source
(where it is updated but never read for the cost). -/
def forwardScan (bins : List Bin) : Bin × List F32 :=
  (List.range 15).foldl
    (fun s k =>
      let bin := bins.getD k binDefault
      if bin.count > 0 then
        (⟨s.1.bbox.union bin.bbox, s.1.count + bin.count⟩,
         s.2.set k (F32.add (s.2.getD k F32.nan)
           (F32.fin ((bin.count : ℚ) * bin.bbox.surface_area))))
      else s)
    (binDefault, List.replicate 15 (F32.fin f32MAX))

/-- The backward cost scan (src/tree.rs lines 186-195): bins 15 down to 1,
each nonempty bin k adds `count_k * SA(bbox_k)` to `costs[k-1]`. -/
def backwardScan (bins : List Bin) (costs : List F32) : Bin × List F32 :=
  ((List.range 15).reverse.map (· + 1)).foldl
    (fun s k =>
      let bin := bins.getD k binDefault
      if bin.count > 0 then
        (⟨s.1.bbox.union bin.bbox, s.1.count + bin.count⟩,
         s.2.set (k - 1) (F32.add (s.2.getD (k - 1) F32.nan)
           (F32.fin ((bin.count : ℚ) * bin.bbox.surface_area))))
      else s)
    (binDefault, costs)

/-- Rust's `Iterator::min_by`: fold keeping the accumulator unless the new
element is strictly smaller, so the first of equal minima is returned.  The
empty case cannot occur (the cost array has 15 entries); it yields a junk
pair. -/
def minByFirst (l : List (ℕ × F32)) : ℕ × F32 :=
  match l with
  | [] => (0, F32.nan)
  | x :: xs =>
    xs.foldl (fun acc y => if F32.total_cmp y.2 acc.2 = Ordering.lt then y else acc) x

/-- Rust's `Iterator::max_by` on bin counts: fold replacing the accumulator
whenever the new element is greater *or equal*, so the last of equal maxima
is returned. -/
def maxByLast (l : List (ℕ × ℕ)) : ℕ × ℕ :=
  match l with
  | [] => (0, 0)
  | x :: xs => xs.foldl (fun acc y => if acc.2 ≤ y.2 then y else acc) x

/-- The SAH partition predicate (src/tree.rs lines 229-236): items with a
centroid go left when their bin index is at most `min_bin_idx`; centroid-less
items go left. -/
def sahPredB (cb : BoundingBox) (ax : Axis) (minBin : ℕ) (info : ItemInfo) : Bool :=
  match info.centroid with
  | some c => decide (comp_bin_idx (offsetAt cb ax c) ≤ minBin)
  | none => true

/-- The fallback partition predicate (src/tree.rs lines 239-246): items with
a centroid go left when their bin index is at least the (clamped) most
populated bin's index; centroid-less items go left. -/
def maxPredB (cb : BoundingBox) (ax : Axis) (maxBin : ℕ) (info : ItemInfo) : Bool :=
  match info.centroid with
  | some c => decide (maxBin ≤ comp_bin_idx (offsetAt cb ax c))
  | none => true

/-- The tree, as the binary structure the arena encodes. -/
inductive Tre where
  | leaf (bbox : Option BoundingBox) (items : List Item)
  | interior (bbox : Option BoundingBox) (left : Tre) (right : Tre)

/-- `TreeNode::get_bbox`. -/
def Tre.getBBox : Tre → Option BoundingBox
  | Tre.leaf bb _ => bb
  | Tre.interior bb _ _ => bb

/-- `Tree::new_leaf` (src/tree.rs lines 91-99): keep the items, reduce their
present bboxes by union. -/
def newLeaf (infos : List ItemInfo) : Tre :=
  Tre.leaf (reduceUnion (infos.filterMap ItemInfo.bbox)) (infos.map ItemInfo.item)

/-- The centroid bounding box (src/tree.rs lines 128-133): fold the present
centroids into the sentinel box by `add_point`. -/
def centroidBoxOf (infos : List ItemInfo) : BoundingBox :=
  (infos.filterMap ItemInfo.centroid).foldl BoundingBox.add_point BoundingBox.sentinel

/-- The filled bins of one `new_interior` invocation. -/
def binsOf (infos : List ItemInfo) (total : BoundingBox) : List Bin :=
  computeBins infos (centroidBoxOf infos) total.longest_axis

/-- The cost array after both scans. -/
def costsOf (bins : List Bin) : List F32 :=
  (backwardScan bins (forwardScan bins).2).2

/-- `(min_bin_idx, min_cost)` before normalization (src/tree.rs lines 198-202). -/
def minPairOf (bins : List Bin) : ℕ × F32 := minByFirst (costsOf bins).enum

/-- `max_bin_idx` after `clamp(1, NUM_BINS - 2)` (src/tree.rs lines 205-218). -/
def maxBinIdxOf (bins : List Bin) : ℕ :=
  min (max (maxByLast ((bins.map Bin.count).enum)).1 1) 14

/-- The normalized minimum cost `0.5 + min_cost / SA(total_bbox)`
(src/tree.rs line 215). -/
def minCostOf (bins : List Bin) (total : BoundingBox) : F32 :=
  F32.add (F32.fin (1/2)) (F32.div (minPairOf bins).2 (F32.fin total.surface_area))

/-- The decision one `new_interior` invocation takes before recursing. -/
inductive BuildDecision where
  | leaf
  | split (total : BoundingBox) (lparts rparts : List ItemInfo)

/-- The non-recursive part of `Tree::new_interior` (src/tree.rs lines
112-263): with ≤ 4 items or no bounded item, emit a leaf; otherwise bin the
items along the longest axis of the total bbox, run the two cost scans, and
partition either by the SAH predicate (when `min_cost < num_items`) or by
the most-populated-bin predicate. -/
def buildStep (infos : List ItemInfo) : BuildDecision :=
  if infos.length ≤ 4 then BuildDecision.leaf
  else
    match reduceUnion (infos.filterMap ItemInfo.bbox) with
    | none => BuildDecision.leaf
    | some total =>
      let cb := centroidBoxOf infos
      let ax := total.longest_axis
      let bins := binsOf infos total
      let parts :=
        if F32.flt (minCostOf bins total) (F32.fin (infos.length : ℚ))
        then infos.partition (sahPredB cb ax (minPairOf bins).1)
        else infos.partition (maxPredB cb ax (maxBinIdxOf bins))
      BuildDecision.split total parts.1 parts.2

/-- Combining the two recursive child results into the interior node
carrying `Some(total_bbox)`; `none` propagates exhausted fuel. -/
def combineChildren (total : BoundingBox) : Option Tre → Option Tre → Option Tre
  | some lt, some rt => some (Tre.interior (some total) lt rt)
  | _, _ => none

/-- `Tree::new_interior` with explicit fuel for its (not obviously
terminating) recursion: take the step's decision, then recurse on both
partitions. -/
def buildFuel : ℕ → List ItemInfo → Option Tre
  | 0, _ => none
  | fuel + 1, infos =>
    match buildStep infos with
    | BuildDecision.leaf => some (newLeaf infos)
    | BuildDecision.split total l r =>
      combineChildren total (buildFuel fuel l) (buildFuel fuel r)

/-- `Tree::new` (src/tree.rs lines 269-299): precompute `ItemInfo` for every
item, then build. -/
def treeNew (fuel : ℕ) (items : List Item) : Option Tre :=
  buildFuel fuel (items.map mkInfo)

/-- The bbox gate at the top of `hit_impl`: a present bbox that fails the
branchless test rejects the node. -/
def bboxRejects (bb : Option BoundingBox) (r : Ray) (inv : V3F) (a b : ℚ) : Prop :=
  match bb with
  | some box => ¬ hit_with_inv box r inv a b
  | none => False

instance (bb : Option BoundingBox) (r : Ray) (inv : V3F) (a b : ℚ) :
    Decidable (bboxRejects bb r inv a b) := by
  unfold bboxRejects
  cases bb <;> infer_instance

/-- `Tree::hit_impl` (src/tree.rs lines 305-337): gate on the node bbox; a
leaf delegates to the list intersector on its items; an interior node
recurses left with the full window, then right with `t_max` tightened to the
left hit's `t`, preferring the right result. -/
def hitImpl (r : Ray) (inv : V3F) : Tre → ℚ → ℚ → Option HitRecord
  | Tre.leaf bb items, t_min, t_max =>
    if bboxRejects bb r inv t_min t_max then none
    else listHitItems items r t_min t_max
  | Tre.interior bb lt rt, t_min, t_max =>
    if bboxRejects bb r inv t_min t_max then none
    else
      let left_hit := hitImpl r inv lt t_min t_max
      let t_max2 := match left_hit with
        | some rec => rec.t
        | none => t_max
      match hitImpl r inv rt t_min t_max2 with
      | some right_hit => some right_hit
      | none => left_hit

/-- `impl Hittable for Tree::hit` (src/tree.rs lines 340-344): compute the
reciprocal direction once, then descend. -/
def treeHit (t : Tre) (r : Ray) (t_min t_max : ℚ) : Option HitRecord :=
  hitImpl r (recipV r.direction) t t_min t_max

/-!
## Concrete scenes

`exItems`: five coplanar quads in the z = 0 plane.  Quads `qA` and `qB`
overlap, so a ray through the overlap hits both at exactly the same `t`.
The dummies `qD1`, `qD2`, `qD3` spread the centroids so that the build
produces an interior node whose partition separates `qA` from `qB`.
All coordinates are dyadic, so every f32 computation the code performs on
them is exact.
-/

/-- Unit quad in the z = 0 plane (corner layout of `Quad::from_bounds_k`
with axis 2), material tag 1. -/
def qA : Quad := ⟨⟨0, 0, 0⟩, ⟨1, 0, 0⟩, ⟨1, 1, 0⟩, ⟨0, 1, 0⟩, 1⟩

/-- Quad over x ∈ [1/2, 3/2], overlapping `qA`, material tag 2. -/
def qB : Quad := ⟨⟨1/2, 0, 0⟩, ⟨3/2, 0, 0⟩, ⟨3/2, 1, 0⟩, ⟨1/2, 1, 0⟩, 2⟩

/-- Dummy quad over x ∈ [9/8, 11/8], material tag 3. -/
def qD1 : Quad := ⟨⟨9/8, 0, 0⟩, ⟨11/8, 0, 0⟩, ⟨11/8, 1, 0⟩, ⟨9/8, 1, 0⟩, 3⟩

/-- Dummy quad over x ∈ [5/4, 3/2], material tag 4. -/
def qD2 : Quad := ⟨⟨5/4, 0, 0⟩, ⟨3/2, 0, 0⟩, ⟨3/2, 1, 0⟩, ⟨5/4, 1, 0⟩, 4⟩

/-- Far dummy quad over x ∈ [8, 9], material tag 5. -/
def qD3 : Quad := ⟨⟨8, 0, 0⟩, ⟨9, 0, 0⟩, ⟨9, 1, 0⟩, ⟨8, 1, 0⟩, 5⟩

/-- The five-quad scene, in list order A, B, D1, D2, D3. -/
def exItems : List Item :=
  [Item.ofQuad qA, Item.ofQuad qB, Item.ofQuad qD1, Item.ofQuad qD2, Item.ofQuad qD3]

/-- The build-time infos of the five-quad scene. -/
def exInfos : List ItemInfo := exItems.map mkInfo

/-- A ray through the overlap of `qA` and `qB`, shot down the z axis. -/
def exRay : Ray := ⟨⟨3/4, 1/2, 1⟩, ⟨0, 0, -1⟩, 0⟩

/-- C1 — counterexample.  On the five-quad scene the ray hits `qA` and `qB`
at the same `t = 1`.  The list intersector returns the `qB` record (the quad
t-bound test accepts `t = t_max`, so the later list entry wins the tie); the
built tree puts `qB` in the left child and `qA` in the right child and
returns the `qA` record.  Same `t`, different primitive identity — the
traversal result does not equal the list result. -/
theorem c1_counterexample :
    ((treeNew 3 exItems).map fun tr =>
        (treeHit tr exRay 0 100).map fun rec => (rec.t, rec.material)) =
      some (some ((1 : ℚ), (1 : ℕ))) ∧
    ((listHitItems exItems exRay 0 100).map fun rec => (rec.t, rec.material)) =
      some ((1 : ℚ), (2 : ℕ)) ∧
    (1 : ℕ) ≠ 2 := by
  refine ⟨?_, ?_, by simp⟩
  · with_unfolding_all decide
  · with_unfolding_all decide

/-!
## C4: non-termination of the build

Five items with identical bounding boxes share one centroid, the centroid
box is a point, every binning offset is 0/0 = NaN, and `NaN as usize = 0`
puts all five items in bin 0.  The most-populated bin index 0 is clamped up
to 1, so the fallback partition `bin_idx >= 1` sends every item to the right
part and `new_interior` recurses on its own input list forever.
-/

/-- An item that never hits, with a unit-cube bounding box. -/
def c4Item : Item := ⟨fun _ _ _ => none, some ⟨⟨0, 0, 0⟩, ⟨1, 1, 1⟩⟩⟩

/-- Five identical items: the non-terminating input. -/
def c4Infos : List ItemInfo := (List.replicate 5 c4Item).map mkInfo

/-- The step on `c4Infos` keeps all five items in the right partition. -/
theorem c4_step :
    buildStep c4Infos =
      BuildDecision.split ⟨⟨0, 0, 0⟩, ⟨1, 1, 1⟩⟩ [] c4Infos := by
  with_unfolding_all rfl

/-- C4 — the build does not terminate on five identical items: every amount
of fuel is exhausted.  By `c4_step`, `new_interior` on these five items
recurses on the very same five items. -/
theorem c4_nontermination :
    c4Infos.length = 5 ∧ ∀ fuel, buildFuel fuel c4Infos = none := by
  refine ⟨by with_unfolding_all rfl, ?_⟩
  intro fuel
  induction fuel with
  | zero => rfl
  | succ n ih =>
    rw [buildFuel, c4_step]
    dsimp only
    rw [ih]
    rcases buildFuel n ([] : List ItemInfo) with _ | t <;> rfl

/-!
## C6: the Transform hit re-finalizes with the untransformed normal

`Transform::hit` builds the transformed record (with the correctly
transformed normal) and then overwrites it via
`set_face_normal(&transformed_ray, rec.normal)` — the *untransformed* inner
normal, judged against the *transformed* ray.  Under the orientation-flipping
scale (1,1,-1) the final normal points along the original ray. -/

/-- A transform scaling z by -1 around the unit quad `qA`. -/
def c6T : TransformH := fromScaleFactor ⟨1, 1, -1⟩ (quadHit qA)

/-- A ray hitting the transformed quad straight on. -/
def c6Ray : Ray := ⟨⟨1/2, 1/2, 1⟩, ⟨0, 0, -1⟩, 0⟩

/-- C6 — evaluation at the failing input: the finalized record of
`Transform::hit` has `dot(ray.direction, hit.normal) = 1 > 0`, violating the
claimed invariant `dot(ray.direction, hit.normal) ≤ 0`. -/
theorem c6_transform_breaks_orientation :
    ((transformHit c6T c6Ray 0 100).map fun rec => c6Ray.direction.dot rec.normal) =
      some 1 ∧ ¬((1 : ℚ) ≤ 0) := by
  constructor
  · with_unfolding_all decide
  · norm_num

/-!
## C3: the SAH cost array does not follow the claimed formula

The cost entries are initialized to `f32::MAX` and then incremented, and
each scan adds `count_k * SA(bbox_k)` with the *bin's own* bbox — the
accumulated union (`acc`) is computed but never read.  The claimed formula
`N_left * SA(union left) + N_right * SA(union right)` therefore disagrees at
essentially every input with at least two populated bins. -/

/-- The cost formula asserted by the claim (and spec §4.3): the left count
times the surface area of the union of the left bins' bboxes plus the same
for the right side, empty bins contributing nothing.  Claim-side definition,
for comparison only. -/
def claimedCost (bins : List Bin) (k : ℕ) : ℚ :=
  let left := (bins.take (k + 1)).filter fun b => 0 < b.count
  let right := (bins.drop (k + 1)).filter fun b => 0 < b.count
  ((left.map Bin.count).sum : ℚ) *
    (match reduceUnion (left.map Bin.bbox) with
     | some B => B.surface_area
     | none => 0) +
  ((right.map Bin.count).sum : ℚ) *
    (match reduceUnion (right.map Bin.bbox) with
     | some B => B.surface_area
     | none => 0)

/-- One of the five spread unit cubes of the C3 failing input. -/
def c3Item (i : ℕ) : Item :=
  ⟨fun _ _ _ => none, some ⟨⟨2 * i, 0, 0⟩, ⟨2 * i + 1, 1, 1⟩⟩⟩

/-- Five unit cubes at x = 0, 2, 4, 6, 8: bins 0, 4, 8, 12, 15 hold one item
each. -/
def c3Infos : List ItemInfo := (List.range 5).map fun i => mkInfo (c3Item i)

/-- The total bbox of the C3 input. -/
def c3Total : BoundingBox := ⟨⟨0, 0, 0⟩, ⟨9, 1, 1⟩⟩

/-- C3 — evaluation at the failing input: for split k = 0 the code's cost is
`f32::MAX + 6` (the MAX initialization plus `1 * SA(cube)`), whereas the
claimed formula gives `1 * SA(cube) + 4 * SA(union of the right cubes)` =
126. -/
theorem c3_cost_mismatch :
    reduceUnion (c3Infos.filterMap ItemInfo.bbox) = some c3Total ∧
    (costsOf (binsOf c3Infos c3Total)).getD 0 F32.nan =
      F32.add (F32.fin f32MAX) (F32.fin 6) ∧
    claimedCost (binsOf c3Infos c3Total) 0 = 126 ∧
    F32.flt (F32.fin (claimedCost (binsOf c3Infos c3Total) 0))
      ((costsOf (binsOf c3Infos c3Total)).getD 0 F32.nan) := by
  refine ⟨?_, ?_, ?_, ?_⟩
  · with_unfolding_all decide
  · with_unfolding_all rfl
  · with_unfolding_all decide
  · with_unfolding_all decide

/-!
## C2: the fallback split is most-populated-bin, not a median split
-/

/-- The partition lists of a `split` decision, `none` on a leaf decision. -/
def stepParts (infos : List ItemInfo) : Option (List ItemInfo × List ItemInfo) :=
  match buildStep infos with
  | BuildDecision.split _ l r => some (l, r)
  | BuildDecision.leaf => none

/-- The fallback partition the claim describes: sort by `bbox.min` along the
split axis with unbounded items first, split at `|items|/2`.  Claim-side
definition, for comparison only. -/
def medianSplitClaimed (infos : List ItemInfo) (ax : Axis) : List ItemInfo × List ItemInfo :=
  let le : ItemInfo → ItemInfo → Bool := fun i j =>
    match i.bbox, j.bbox with
    | none, _ => true
    | some _, none => false
    | some a, some b => decide (a.min.axis ax ≤ b.min.axis ax)
  let sorted := infos.mergeSort le
  (sorted.take (infos.length / 2), sorted.drop (infos.length / 2))

/-- The total bbox of the five-quad scene (the quad bboxes carry the ±0.0001
padding). -/
def exTotal : BoundingBox :=
  ⟨⟨-(1/10000), -(1/10000), -(1/10000)⟩, ⟨90001/10000, 10001/10000, 1/10000⟩⟩

/-- The padded bbox of `qA`. -/
def boxA : BoundingBox :=
  ⟨⟨-(1/10000), -(1/10000), -(1/10000)⟩, ⟨10001/10000, 10001/10000, 1/10000⟩⟩

/-- The padded bbox of `qB`. -/
def boxB : BoundingBox :=
  ⟨⟨4999/10000, -(1/10000), -(1/10000)⟩, ⟨15001/10000, 10001/10000, 1/10000⟩⟩

/-- The padded bbox of `qD1`. -/
def boxD1 : BoundingBox :=
  ⟨⟨11249/10000, -(1/10000), -(1/10000)⟩, ⟨13751/10000, 10001/10000, 1/10000⟩⟩

/-- The padded bbox of `qD2`. -/
def boxD2 : BoundingBox :=
  ⟨⟨12499/10000, -(1/10000), -(1/10000)⟩, ⟨15001/10000, 10001/10000, 1/10000⟩⟩

/-- The padded bbox of `qD3`. -/
def boxD3 : BoundingBox :=
  ⟨⟨79999/10000, -(1/10000), -(1/10000)⟩, ⟨90001/10000, 10001/10000, 1/10000⟩⟩

/-- The five-quad infos, written out (bbox and centroid per quad). -/
def exInfosLit : List ItemInfo :=
  [⟨Item.ofQuad qA, some boxA, some ⟨1/2, 1/2, 0⟩⟩,
   ⟨Item.ofQuad qB, some boxB, some ⟨1, 1/2, 0⟩⟩,
   ⟨Item.ofQuad qD1, some boxD1, some ⟨5/4, 1/2, 0⟩⟩,
   ⟨Item.ofQuad qD2, some boxD2, some ⟨11/8, 1/2, 0⟩⟩,
   ⟨Item.ofQuad qD3, some boxD3, some ⟨17/2, 1/2, 0⟩⟩]

/-- `exInfos` evaluates to the written-out infos. -/
theorem exInfos_eq : exInfos = exInfosLit := by with_unfolding_all rfl

/-- The present bboxes of the five-quad infos. -/
theorem exFilterMap :
    exInfosLit.filterMap ItemInfo.bbox = [boxA, boxB, boxD1, boxD2, boxD3] := by
  with_unfolding_all rfl

/-- Those five boxes reduce to the written-out total box. -/
theorem exTotal_eq : reduceUnion [boxA, boxB, boxD1, boxD2, boxD3] = some exTotal := by
  norm_num [reduceUnion, List.foldl, BoundingBox.union, V3.cmin, V3.cmax,
    boxA, boxB, boxD1, boxD2, boxD3, exTotal, min_def, max_def]

/-- The bbox of bin 1, the union of the `qB`, `qD1`, `qD2` boxes. -/
def binB1 : BoundingBox :=
  ⟨⟨4999/10000, -(1/10000), -(1/10000)⟩, ⟨15001/10000, 10001/10000, 1/10000⟩⟩

/-- The filled bins of the five-quad scene: bin 0 holds A, bin 1 holds B,
D1, D2, bin 15 holds D3. -/
def exBins : List Bin :=
  [⟨boxA, 1⟩, ⟨binB1, 3⟩, binDefault, binDefault,
   binDefault, binDefault, binDefault, binDefault,
   binDefault, binDefault, binDefault, binDefault,
   binDefault, binDefault, binDefault, ⟨boxD3, 1⟩]

/-- The binning of the five-quad scene evaluates to `exBins`. -/
theorem exBins_eq : binsOf exInfosLit exTotal = exBins := by with_unfolding_all rfl

/-- C2 — counterexample.  On the five-quad scene the normalized min cost
(≈ f32::MAX/18) is not below the leaf cost 5, so the code takes its fallback
branch — and that branch partitions by `bin_idx >= max_bin_idx`, giving
left = [B, D1, D2, D3] and right = [A].  The claimed median split would give
left = [A, B] and right = [D1, D2, D3].  The partitions are compared through
the items' centroids, which identify the five quads uniquely. -/
theorem c2_counterexample :
    reduceUnion (exInfos.filterMap ItemInfo.bbox) = some exTotal ∧
    ¬ F32.flt (minCostOf (binsOf exInfos exTotal) exTotal) (F32.fin 5) ∧
    ((stepParts exInfos).map fun p =>
        (p.1.map ItemInfo.centroid, p.2.map ItemInfo.centroid)) =
      some ([some ⟨1, 1/2, 0⟩, some ⟨5/4, 1/2, 0⟩, some ⟨11/8, 1/2, 0⟩,
             some ⟨17/2, 1/2, 0⟩], [some ⟨1/2, 1/2, 0⟩]) ∧
    ((medianSplitClaimed exInfos Axis.X).1.map ItemInfo.centroid,
        (medianSplitClaimed exInfos Axis.X).2.map ItemInfo.centroid) =
      ([some ⟨1/2, 1/2, 0⟩, some ⟨1, 1/2, 0⟩],
       [some ⟨5/4, 1/2, 0⟩, some ⟨11/8, 1/2, 0⟩, some ⟨17/2, 1/2, 0⟩]) ∧
    ([some (⟨1, 1/2, 0⟩ : V3), some ⟨5/4, 1/2, 0⟩, some ⟨11/8, 1/2, 0⟩,
      some ⟨17/2, 1/2, 0⟩] ≠ [some (⟨1/2, 1/2, 0⟩ : V3), some ⟨1, 1/2, 0⟩]) := by
  refine ⟨?_, ?_, ?_, ?_, ?_⟩
  · rw [exInfos_eq, exFilterMap]; exact exTotal_eq
  · rw [exInfos_eq, exBins_eq]; with_unfolding_all decide
  · rw [exInfos_eq]; with_unfolding_all decide
  · rw [exInfos_eq]; with_unfolding_all decide
  · with_unfolding_all decide

/-!
## C5: RNG seeding dataflow

The rand crate is an external collaborator (spec: "pseudorandom sources
(injected)"), so generators are modelled by the seed material that produced
them: `SmallRng::seed_from_u64(s)` is a deterministic function of `s`, and
`SmallRng::from_rng(source)` fills the new state from the source's output
bytes.  `thread_rng()` is an OS-entropy source.
-/

/-- An RNG state at the seeding-dataflow level: the material that seeded it. -/
structure RngState where
  seedMaterial : ℕ
deriving DecidableEq, Repr

/-- `SmallRng::seed_from_u64`: a deterministic function of the seed. -/
def seed_from_u64 (seed : ℕ) : RngState := ⟨seed⟩

/-- `SmallRng::from_rng(source)`: the new state is a function of the bytes the
source emits. -/
def smallRngFromRng (sourceOutput : ℕ) : RngState := ⟨sourceOutput⟩

/-- `rand::thread_rng()` output: OS entropy, modelled as a parameter. -/
def threadRngOutput (osEntropy : ℕ) : ℕ := osEntropy

/-- The root RNG set up by `main` (src/main.rs lines 28-37): the `--seed`
value when given, the fixed seed 0 in debug builds, OS entropy otherwise. -/
def mainRootRng (seedArg : Option ℕ) (debugBuild : Bool) (osEntropy : ℕ) : RngState :=
  match seedArg with
  | some seed => seed_from_u64 seed
  | none => if debugBuild then seed_from_u64 0 else smallRngFromRng (threadRngOutput osEntropy)

set_option linter.unusedVariables false in
/-- The per-sample RNG created in `RenderContext::render` (src/render.rs
lines 105-135): `SmallRng::from_rng(&mut rand::thread_rng()).unwrap()`.  The
root seed parameter is listed in order to state the claim; the code does not
consult it. -/
def perSampleRng (rootSeed : ℕ) (osEntropy : ℕ) : RngState :=
  smallRngFromRng (threadRngOutput osEntropy)

/-- C5 — counterexample: the per-sample RNG state is *not* a function of the
root seed; it differs across two runs with the same seed but different
thread-rng entropy. -/
theorem c5_counterexample :
    ¬ ∃ f : ℕ → RngState, ∀ seed osEntropy, perSampleRng seed osEntropy = f seed := by
  rintro ⟨f, hf⟩
  have h2 : perSampleRng 0 0 = perSampleRng 0 1 := (hf 0 0).trans (hf 0 1).symm
  simp [perSampleRng, smallRngFromRng, threadRngOutput, RngState.mk.injEq] at h2

/-- C5 (amended): with `--seed` given, the root RNG used for scene
construction is a deterministic function of the seed alone; but every
per-sample RNG in the render loop is seeded from `thread_rng()` (OS
entropy), so the per-sample random values — and hence the sampled image —
are not a function of the root seed, and byte-identical output across runs
is not guaranteed. -/
theorem c5_amended :
    (∀ seed e1 e2, mainRootRng (some seed) false e1 = mainRootRng (some seed) false e2) ∧
    (∀ seed, perSampleRng seed 0 ≠ perSampleRng seed 1) := by
  constructor
  · intro seed e1 e2; rfl
  · intro seed h
    simp [perSampleRng, smallRngFromRng, threadRngOutput, RngState.mk.injEq] at h

/-!
## C2 (amended): what the split actually does

Helper lemmas characterize Rust's `max_by` fold: it returns an element of
the list, of maximal count, and — because the fold replaces the accumulator
on ties — the *last* index among equal maxima.
-/

/-- The fold underlying `maxByLast` yields the initial accumulator or a list
element. -/
theorem foldl_maxby_mem (xs : List (ℕ × ℕ)) : ∀ acc : ℕ × ℕ,
    xs.foldl (fun acc y => if acc.2 ≤ y.2 then y else acc) acc = acc ∨
    xs.foldl (fun acc y => if acc.2 ≤ y.2 then y else acc) acc ∈ xs := by
  induction xs with
  | nil => intro acc; left; rfl
  | cons y ys ih =>
    intro acc
    simp only [List.foldl_cons]
    by_cases h : acc.2 ≤ y.2
    · rw [if_pos h]
      rcases ih y with h2 | h2
      · right; rw [h2]; exact List.mem_cons_self y ys
      · right; exact List.mem_cons_of_mem y h2
    · rw [if_neg h]
      rcases ih acc with h2 | h2
      · left; exact h2
      · right; exact List.mem_cons_of_mem y h2

/-- The fold underlying `maxByLast` dominates the accumulator and every list
element. -/
theorem foldl_maxby_ge (xs : List (ℕ × ℕ)) : ∀ acc : ℕ × ℕ,
    acc.2 ≤ (xs.foldl (fun acc y => if acc.2 ≤ y.2 then y else acc) acc).2 ∧
    ∀ y ∈ xs, y.2 ≤ (xs.foldl (fun acc y => if acc.2 ≤ y.2 then y else acc) acc).2 := by
  induction xs with
  | nil => intro acc; exact ⟨le_refl _, by simp⟩
  | cons y ys ih =>
    intro acc
    simp only [List.foldl_cons]
    by_cases h : acc.2 ≤ y.2
    · rw [if_pos h]
      refine ⟨le_trans h (ih y).1, ?_⟩
      intro z hz
      rcases List.mem_cons.mp hz with rfl | hz
      · exact (ih z).1
      · exact (ih y).2 z hz
    · rw [if_neg h]
      refine ⟨(ih acc).1, ?_⟩
      intro z hz
      rcases List.mem_cons.mp hz with rfl | hz
      · exact le_trans (le_of_not_le h) (ih acc).1
      · exact (ih acc).2 z hz

/-- Rust's `max_by` keeps the last of equal maxima: on a list whose first
components pairwise increase (accumulator first), any element tying the
result's count has an index at most the result's index. -/
theorem foldl_maxby_last (xs : List (ℕ × ℕ)) : ∀ acc : ℕ × ℕ,
    List.Pairwise (fun a b : ℕ × ℕ => a.1 < b.1) (acc :: xs) →
    (∀ z ∈ acc :: xs,
      z.2 = (xs.foldl (fun acc y => if acc.2 ≤ y.2 then y else acc) acc).2 →
      z.1 ≤ (xs.foldl (fun acc y => if acc.2 ≤ y.2 then y else acc) acc).1) := by
  induction xs with
  | nil =>
    intro acc _ z hz _
    simp only [List.mem_singleton] at hz
    rw [hz]
    exact le_refl _
  | cons y ys ih =>
    intro acc hpw z hz hz2
    have hay : acc.1 < y.1 := (List.pairwise_cons.mp hpw).1 y (List.mem_cons_self y ys)
    have hpw2 : List.Pairwise (fun a b : ℕ × ℕ => a.1 < b.1) (y :: ys) :=
      (List.pairwise_cons.mp hpw).2
    have hpw3 : List.Pairwise (fun a b : ℕ × ℕ => a.1 < b.1) (acc :: ys) := by
      have hsub : List.Sublist (acc :: ys) (acc :: y :: ys) :=
        List.Sublist.cons₂ acc (List.sublist_cons_self y ys)
      exact List.Pairwise.sublist hsub hpw
    simp only [List.foldl_cons] at hz2 ⊢
    by_cases h : acc.2 ≤ y.2
    · rw [if_pos h] at hz2 ⊢
      rcases List.mem_cons.mp hz with hza | hz
      · -- z is the old accumulator: the result is y or lies in ys, and both
        -- have strictly larger indices
        rcases foldl_maxby_mem ys y with hm | hm
        · rw [hm, hza]; exact le_of_lt hay
        · have hlt : y.1 < (ys.foldl (fun acc y => if acc.2 ≤ y.2 then y else acc) y).1 :=
            (List.pairwise_cons.mp hpw2).1 _ hm
          rw [hza]
          exact le_of_lt (lt_trans hay hlt)
      · exact ih y hpw2 z hz hz2
    · rw [if_neg h] at hz2 ⊢
      rcases List.mem_cons.mp hz with hza | hz
      · rw [hza] at hz2 ⊢
        exact ih acc hpw3 acc (List.mem_cons_self acc ys) hz2
      · rcases List.mem_cons.mp hz with hzy | hz3
        · -- z = y was rejected: its count is strictly below the accumulator's,
          -- which the result dominates, contradicting the tie
          exfalso
          have hlt : z.2 < acc.2 := by rw [hzy]; exact lt_of_not_le h
          have hge := (foldl_maxby_ge ys acc).1
          rw [hz2] at hlt
          exact absurd (lt_of_le_of_lt hge hlt) (lt_irrefl _)
        · exact ih acc hpw3 z (List.mem_cons_of_mem acc hz3) hz2

/-- Every member of `List.enumFrom n l` has first component at least `n`. -/
theorem le_fst_of_mem_enumFrom {α : Type} (l : List α) : ∀ (n : ℕ) (y : ℕ × α),
    y ∈ List.enumFrom n l → n ≤ y.1 := by
  induction l with
  | nil => intro n y hy; simp at hy
  | cons x xs ih =>
    intro n y hy
    simp only [List.enumFrom] at hy
    rcases List.mem_cons.mp hy with rfl | hy
    · exact le_refl _
    · exact le_trans (Nat.le_succ n) (ih (n + 1) y hy)

/-- The first components of `List.enumFrom` are pairwise increasing. -/
theorem pairwise_fst_enumFrom {α : Type} (l : List α) : ∀ n : ℕ,
    List.Pairwise (fun a b : ℕ × α => a.1 < b.1) (List.enumFrom n l) := by
  induction l with
  | nil => intro n; simp
  | cons x xs ih =>
    intro n
    simp only [List.enumFrom]
    refine List.pairwise_cons.mpr ⟨?_, ih (n + 1)⟩
    intro y hy
    exact lt_of_lt_of_le (Nat.lt_succ_self n) (le_fst_of_mem_enumFrom xs (n + 1) y hy)

/-- Rust's `max_by` over the enumerated bin counts: the result is an element,
its count is maximal, and among equal maxima it has the greatest index. -/
theorem maxByLast_spec (x : ℕ × ℕ) (xs : List (ℕ × ℕ))
    (hpw : List.Pairwise (fun a b : ℕ × ℕ => a.1 < b.1) (x :: xs)) :
    maxByLast (x :: xs) ∈ x :: xs ∧
    (∀ y ∈ x :: xs, y.2 ≤ (maxByLast (x :: xs)).2) ∧
    (∀ y ∈ x :: xs, y.2 = (maxByLast (x :: xs)).2 → y.1 ≤ (maxByLast (x :: xs)).1) := by
  refine ⟨?_, ?_, foldl_maxby_last xs x hpw⟩
  · rcases foldl_maxby_mem xs x with hm | hm
    · rw [maxByLast]; rw [hm]; exact List.mem_cons_self x xs
    · exact List.mem_cons_of_mem x hm
  · intro y hy
    rcases List.mem_cons.mp hy with rfl | hy
    · exact (foldl_maxby_ge xs y).1
    · exact (foldl_maxby_ge xs x).2 y hy

/-- The binning loop preserves the bin count 16. -/
theorem computeBins_length (infos : List ItemInfo) (cb : BoundingBox) (ax : Axis) :
    (computeBins infos cb ax).length = 16 := by
  unfold computeBins
  have : ∀ (l : List ItemInfo) (bins : List Bin),
      (l.foldl (fun bins info =>
        let idx := binOf cb ax info
        let bin := bins.getD idx binDefault
        bins.set idx
          ⟨(match info.bbox with
            | some bbox => bin.bbox.union bbox
            | none => bin.bbox), bin.count + 1⟩) bins).length = bins.length := by
    intro l
    induction l with
    | nil => intro bins; rfl
    | cons x xs ih =>
      intro bins
      simp only [List.foldl_cons]
      rw [ih]
      exact List.length_set bins _ _
  rw [this]
  rfl

/-- C2 (amended): when `new_interior` splits, there are more than 4 items and
a total bbox; if the normalized min cost beats the leaf cost the partition is
by `bin_idx ≤ min_bin_idx`, and otherwise — the fallback — by
`bin_idx ≥ max_bin_idx`, where `max_bin_idx` is the index of the *last* most
populated bin clamped into `[1, 14]` (not the claimed median split by sorted
`bbox.min`); in both strategies centroid-less items go left. -/
theorem c2_amended : ∀ (infos : List ItemInfo) (total : BoundingBox) (l r : List ItemInfo),
    buildStep infos = BuildDecision.split total l r →
    4 < infos.length ∧
    reduceUnion (infos.filterMap ItemInfo.bbox) = some total ∧
    (F32.flt (minCostOf (binsOf infos total) total) (F32.fin (infos.length : ℚ)) →
      l = infos.filter (fun i =>
        sahPredB (centroidBoxOf infos) total.longest_axis
          (minPairOf (binsOf infos total)).1 i) ∧
      r = infos.filter (fun i =>
        !(sahPredB (centroidBoxOf infos) total.longest_axis
          (minPairOf (binsOf infos total)).1 i))) ∧
    (¬ F32.flt (minCostOf (binsOf infos total) total) (F32.fin (infos.length : ℚ)) →
      l = infos.filter (fun i =>
        maxPredB (centroidBoxOf infos) total.longest_axis
          (maxBinIdxOf (binsOf infos total)) i) ∧
      r = infos.filter (fun i =>
        !(maxPredB (centroidBoxOf infos) total.longest_axis
          (maxBinIdxOf (binsOf infos total)) i))) ∧
    (1 ≤ maxBinIdxOf (binsOf infos total) ∧ maxBinIdxOf (binsOf infos total) ≤ 14 ∧
      maxBinIdxOf (binsOf infos total) =
        min (max (maxByLast (((binsOf infos total).map Bin.count).enum)).1 1) 14 ∧
      (maxByLast (((binsOf infos total).map Bin.count).enum) ∈
        ((binsOf infos total).map Bin.count).enum) ∧
      (∀ y ∈ ((binsOf infos total).map Bin.count).enum,
        y.2 ≤ (maxByLast (((binsOf infos total).map Bin.count).enum)).2) ∧
      (∀ y ∈ ((binsOf infos total).map Bin.count).enum,
        y.2 = (maxByLast (((binsOf infos total).map Bin.count).enum)).2 →
        y.1 ≤ (maxByLast (((binsOf infos total).map Bin.count).enum)).1)) ∧
    (∀ info ∈ infos, info.centroid = none →
      sahPredB (centroidBoxOf infos) total.longest_axis
        (minPairOf (binsOf infos total)).1 info = true ∧
      maxPredB (centroidBoxOf infos) total.longest_axis
        (maxBinIdxOf (binsOf infos total)) info = true) := by
  intro infos total l r h
  by_cases hlen : infos.length ≤ 4
  · rw [buildStep, if_pos hlen] at h
    exact absurd h (by simp)
  · have hlen2 : 4 < infos.length := lt_of_not_le hlen
    rcases hred : reduceUnion (infos.filterMap ItemInfo.bbox) with _ | t
    · rw [buildStep, if_neg hlen] at h
      rw [hred] at h
      exact absurd h (by simp)
    · rw [buildStep, if_neg hlen] at h
      rw [hred] at h
      simp only [BuildDecision.split.injEq] at h
      obtain ⟨rfl, hl, hr⟩ := h
      refine ⟨hlen2, rfl, ?_, ?_, ?_, ?_⟩
      · intro hcond
        rw [if_pos hcond] at hl hr
        rw [← hl, ← hr, List.partition_eq_filter_filter]
        exact ⟨rfl, rfl⟩
      · intro hcond
        rw [if_neg hcond] at hl hr
        rw [← hl, ← hr, List.partition_eq_filter_filter]
        exact ⟨rfl, rfl⟩
      · have hlen16 : (binsOf infos t).length = 16 := computeBins_length ..
        have hne : ((binsOf infos t).map Bin.count).enum ≠ [] := by
          intro he
          have := congrArg List.length he
          simp [List.enum_length, hlen16] at this
        rcases he : ((binsOf infos t).map Bin.count).enum with _ | ⟨x, xs⟩
        · exact absurd he hne
        · have hpw : List.Pairwise (fun a b : ℕ × ℕ => a.1 < b.1) (x :: xs) := by
            rw [← he]
            exact pairwise_fst_enumFrom _ 0
          obtain ⟨hm, hmax, hlast⟩ := maxByLast_spec x xs hpw
          have hmb : maxBinIdxOf (binsOf infos t) =
              min (max (maxByLast (x :: xs)).1 1) 14 := by
            rw [maxBinIdxOf, he]
          refine ⟨?_, ?_, ?_, hm, hmax, hlast⟩
          · rw [hmb]; omega
          · rw [hmb]; omega
          · rw [hmb]
      · intro info _ hc
        constructor
        · simp [sahPredB, hc]
        · simp [maxPredB, hc]

/-- C2 — witness: the amended characterization applied to the five-quad scene
(which takes the fallback branch). -/
theorem c2_amended_witness :
    4 < exInfosLit.length ∧
    (exInfosLit.drop 1) = exInfosLit.filter (fun i =>
      maxPredB (centroidBoxOf exInfosLit) exTotal.longest_axis
        (maxBinIdxOf (binsOf exInfosLit exTotal)) i) := by
  have hstep : buildStep exInfosLit =
      BuildDecision.split exTotal (exInfosLit.drop 1) (exInfosLit.take 1) := by
    with_unfolding_all rfl
  have h := c2_amended exInfosLit exTotal (exInfosLit.drop 1) (exInfosLit.take 1) hstep
  refine ⟨h.1, ?_⟩
  have hcond : ¬ F32.flt (minCostOf (binsOf exInfosLit exTotal) exTotal)
      (F32.fin (exInfosLit.length : ℚ)) := by
    rw [exBins_eq]
    with_unfolding_all decide
  exact (h.2.2.2.1 hcond).1

/-!
## C1 (amended): the traversal agrees with the list intersector

The claims' "hittable" is a trait object; the equivalence is proved for
every item with *nearest-hit semantics* (the `NearestHit` contract below,
satisfied by the repo's primitives), whose hits lie inside its declared
bounding box, and which is unbounded only if it never hits.  Equality of
`t` (and of None-ness) holds unconditionally; full record equality needs the
minimal `t` to determine the record uniquely, which the tie counterexample
shows is a genuine restriction.
-/

/-- The `t` of an optional hit, `⊤` for a miss — ordered so that "smaller is
closer" and the minimum over items is meaningful. -/
def optT : Option HitRecord → WithTop ℚ
  | none => ⊤
  | some rec => (rec.t : WithTop ℚ)

/-- Nearest-hit semantics of a hittable's `hit`, as the list and tree
intersectors rely on it:
* a returned hit lies within the (closed) query window;
* shrinking the upper bound while keeping the hit inside returns it again;
* a miss stays a miss when the window shrinks;
* shrinking the upper bound strictly below a returned hit's `t` yields a
  miss (the returned hit was the nearest one in the window). -/
structure NearestHit (it : Item) : Prop where
  inWindow : ∀ r a b rec, it.hitF r a b = some rec → a ≤ rec.t ∧ rec.t ≤ b
  shrink : ∀ r a b rec b2, it.hitF r a b = some rec → rec.t ≤ b2 → b2 ≤ b →
    it.hitF r a b2 = some rec
  noneMono : ∀ r a b b2, it.hitF r a b = none → b2 ≤ b → it.hitF r a b2 = none
  cut : ∀ r a b rec b2, it.hitF r a b = some rec → b2 < rec.t → b2 ≤ b →
    it.hitF r a b2 = none

/-- The item's hits stay inside its declared bounding box; an unbounded item
never hits.  (The latter is what the repo's unbounded hittables — empty
lists — satisfy; a genuinely hittable unbounded primitive would break the
tree's pruning, since interior nodes carry only the bounded items' union.) -/
def itemBoxSound (it : Item) : Prop :=
  match it.bbox with
  | some B => ∀ r a b rec, it.hitF r a b = some rec → B.inside (r.at rec.t)
  | none => ∀ r a b, it.hitF r a b = none

/-- The minimal full-window hit parameter over a scene: the infimum of the
items' `optT`s, invariant under permutation by construction. -/
def bestT (items : List Item) (r : Ray) (a b : ℚ) : WithTop ℚ :=
  (Multiset.map (fun it => optT (it.hitF r a b)) (items : Multiset Item)).inf

/-- The items stored at the leaves, in traversal order. -/
def treItems : Tre → List Item
  | Tre.leaf _ items => items
  | Tre.interior _ lt rt => treItems lt ++ treItems rt

/-- A node bbox covers a set of items: every declared item box is inside it. -/
def coversItems (bb : Option BoundingBox) (items : List Item) : Prop :=
  ∀ it ∈ items, ∀ B, it.bbox = some B → ∃ C, bb = some C ∧ B.subset C

/-- Well-formedness of a built tree: every node's bbox covers all items
below it. -/
def treWF : Tre → Prop
  | Tre.leaf bb items => coversItems bb items
  | Tre.interior bb lt rt =>
      coversItems bb (treItems lt ++ treItems rt) ∧ treWF lt ∧ treWF rt

/-- The fold of the list intersector: the accumulator record only serves as
the default, and the running `t_closest` is the last accepted hit's `t`. -/
theorem lhFold_spec (r : Ray) (a : ℚ) : ∀ (l : List Item) (o : Option HitRecord) (tc : ℚ),
    ((l.foldl (lhStep r a) (o, tc)).1 =
      match (l.foldl (lhStep r a) ((none : Option HitRecord), tc)).1 with
      | some x => some x
      | none => o) ∧
    ((l.foldl (lhStep r a) (o, tc)).2 =
      match (l.foldl (lhStep r a) ((none : Option HitRecord), tc)).1 with
      | some rec => rec.t
      | none => tc) := by
  intro l
  induction l with
  | nil => intro o tc; exact ⟨rfl, rfl⟩
  | cons it rest ih =>
    intro o tc
    simp only [List.foldl_cons, lhStep]
    cases h1 : it.hitF r a tc with
    | some recl =>
      obtain ⟨ih1, ih2⟩ := ih (some recl) recl.t
      cases h2 : (rest.foldl (lhStep r a) ((none : Option HitRecord), recl.t)).1 with
      | some x => exact ⟨by simp only [ih1, h2], by simp only [ih1, ih2, h2]⟩
      | none => exact ⟨by simp only [ih1, h2], by simp only [ih1, ih2, h2]⟩
    | none => exact ih o tc

/-- The list intersector, unfolded over a cons cell. -/
theorem listHit_cons (it : Item) (rest : List Item) (r : Ray) (a b : ℚ) :
    listHitItems (it :: rest) r a b =
      match it.hitF r a b with
      | some recl =>
        (match listHitItems rest r a recl.t with
         | some recr => some recr
         | none => some recl)
      | none => listHitItems rest r a b := by
  unfold listHitItems
  simp only [List.foldl_cons, lhStep]
  cases h1 : it.hitF r a b with
  | some recl =>
    have := (lhFold_spec r a rest (some recl) recl.t).1
    rw [this]
  | none => rfl

/-- The list intersector over an appended list: run the left part, then the
right part with the window tightened to the left result. -/
theorem listHit_append (L R : List Item) (r : Ray) (a b : ℚ) :
    listHitItems (L ++ R) r a b =
      match listHitItems L r a b with
      | some recl =>
        (match listHitItems R r a recl.t with
         | some recr => some recr
         | none => some recl)
      | none => listHitItems R r a b := by
  unfold listHitItems
  rw [List.foldl_append]
  obtain ⟨h1, h2⟩ := lhFold_spec r a L (none : Option HitRecord) b
  cases hL : (L.foldl (lhStep r a) ((none : Option HitRecord), b)).1 with
  | some recl =>
    have hpair : L.foldl (lhStep r a) ((none : Option HitRecord), b) = (some recl, recl.t) := by
      have := h2
      rw [hL] at this
      exact Prod.ext hL this
    rw [hpair]
    have := (lhFold_spec r a R (some recl) recl.t).1
    rw [this]
  | none =>
    have hpair : L.foldl (lhStep r a) ((none : Option HitRecord), b) =
        ((none : Option HitRecord), b) := by
      have := h2
      rw [hL] at this
      exact Prod.ext hL this
    rw [hpair]

/-- `optT` is `⊤` exactly on a miss. -/
theorem optT_eq_top_iff (o : Option HitRecord) : optT o = ⊤ ↔ o = none := by
  cases o with
  | none => simp [optT]
  | some rec => simp [optT]

/-- Under nearest-hit semantics, a hit found in a shrunk window is the
full-window hit. -/
theorem NearestHit.expand {it : Item} (h : NearestHit it) (r : Ray) (a b tc : ℚ)
    (rec : HitRecord) (htc : tc ≤ b) (hs : it.hitF r a tc = some rec) :
    it.hitF r a b = some rec := by
  cases hb : it.hitF r a b with
  | none =>
    rw [h.noneMono r a b tc hb htc] at hs
    exact absurd hs (by simp)
  | some rec2 =>
    by_cases hle : rec2.t ≤ tc
    · rw [h.shrink r a b rec2 tc hb hle htc] at hs
      exact hs
    · rw [h.cut r a b rec2 tc hb (lt_of_not_le hle) htc] at hs
      exact absurd hs (by simp)

/-- Truncation of a `WithTop ℚ` hit parameter at a window bound. -/
def trunc (c : ℚ) (x : WithTop ℚ) : WithTop ℚ :=
  if x ≤ (c : WithTop ℚ) then x else ⊤

theorem trunc_top (c : ℚ) : trunc c ⊤ = ⊤ := by
  unfold trunc
  split <;> rfl

theorem trunc_inf (c : ℚ) (x y : WithTop ℚ) :
    trunc c (x ⊓ y) = trunc c x ⊓ trunc c y := by
  unfold trunc
  rcases le_total x y with hxy | hxy
  · rw [inf_eq_left.mpr hxy]
    by_cases hx : x ≤ (c : WithTop ℚ)
    · rw [if_pos hx]
      by_cases hy : y ≤ (c : WithTop ℚ)
      · rw [if_pos hy, inf_eq_left.mpr hxy]
      · rw [if_neg hy, inf_eq_left.mpr le_top]
    · rw [if_neg hx, if_neg (fun hy => hx (le_trans hxy hy)), inf_idem]
  · rw [inf_eq_right.mpr hxy]
    by_cases hy : y ≤ (c : WithTop ℚ)
    · rw [if_pos hy]
      by_cases hx : x ≤ (c : WithTop ℚ)
      · rw [if_pos hx, inf_eq_right.mpr hxy]
      · rw [if_neg hx, inf_eq_right.mpr le_top]
    · rw [if_neg hy, if_neg (fun hx => hy (le_trans hxy hx)), inf_idem]

/-- Pointwise window truncation for one nearest-hit item. -/
theorem optT_window {it : Item} (h : NearestHit it) (r : Ray) (a b tc : ℚ)
    (htc : tc ≤ b) :
    optT (it.hitF r a tc) = trunc tc (optT (it.hitF r a b)) := by
  cases hb : it.hitF r a b with
  | none =>
    rw [h.noneMono r a b tc hb htc]
    unfold trunc
    show (⊤ : WithTop ℚ) = if (⊤ : WithTop ℚ) ≤ (tc : WithTop ℚ) then ⊤ else ⊤
    split <;> rfl
  | some rec =>
    by_cases hle : rec.t ≤ tc
    · rw [h.shrink r a b rec tc hb hle htc]
      unfold trunc
      show (rec.t : WithTop ℚ) =
        if (rec.t : WithTop ℚ) ≤ (tc : WithTop ℚ) then (rec.t : WithTop ℚ) else ⊤
      rw [if_pos (WithTop.coe_le_coe.mpr hle)]
    · rw [h.cut r a b rec tc hb (lt_of_not_le hle) htc]
      unfold trunc
      show (⊤ : WithTop ℚ) =
        if (rec.t : WithTop ℚ) ≤ (tc : WithTop ℚ) then (rec.t : WithTop ℚ) else ⊤
      rw [if_neg (fun hc => hle (WithTop.coe_le_coe.mp hc))]

theorem bestT_nil (r : Ray) (a b : ℚ) : bestT [] r a b = ⊤ := rfl

theorem bestT_cons (it : Item) (l : List Item) (r : Ray) (a b : ℚ) :
    bestT (it :: l) r a b = optT (it.hitF r a b) ⊓ bestT l r a b := by
  unfold bestT
  rw [← Multiset.cons_coe, Multiset.map_cons, Multiset.inf_cons]

theorem bestT_append (L R : List Item) (r : Ray) (a b : ℚ) :
    bestT (L ++ R) r a b = bestT L r a b ⊓ bestT R r a b := by
  unfold bestT
  rw [← Multiset.coe_add, Multiset.map_add, Multiset.inf_add]

theorem bestT_perm {L L2 : List Item} (h : L.Perm L2) (r : Ray) (a b : ℚ) :
    bestT L r a b = bestT L2 r a b := by
  unfold bestT
  rw [Multiset.coe_eq_coe.mpr h]

/-- Shrinking the window truncates the best hit parameter. -/
theorem bestT_window (r : Ray) (a : ℚ) :
    ∀ (l : List Item), (∀ it ∈ l, NearestHit it) → ∀ (b tc : ℚ), tc ≤ b →
      bestT l r a tc = trunc tc (bestT l r a b) := by
  intro l
  induction l with
  | nil => intro _ b tc _; rw [bestT_nil, bestT_nil, trunc_top]
  | cons it rest ih =>
    intro hNH b tc htc
    rw [bestT_cons, bestT_cons, trunc_inf,
        optT_window (hNH it (List.mem_cons_self it rest)) r a b tc htc,
        ih (fun x hx => hNH x (List.mem_cons_of_mem it hx)) b tc htc]

/-- The best hit parameter lies inside the window (or is `⊤`). -/
theorem bestT_le (r : Ray) (a b : ℚ) :
    ∀ l : List Item, (∀ it ∈ l, NearestHit it) →
      bestT l r a b = ⊤ ∨ bestT l r a b ≤ (b : WithTop ℚ) := by
  intro l
  induction l with
  | nil => intro _; exact Or.inl (bestT_nil r a b)
  | cons it rest ih =>
    intro hNH
    rw [bestT_cons]
    cases hb : it.hitF r a b with
    | none =>
      rw [show optT none = (⊤ : WithTop ℚ) from rfl, top_inf_eq]
      exact ih (fun x hx => hNH x (List.mem_cons_of_mem it hx))
    | some rec =>
      right
      have hle : rec.t ≤ b := ((hNH it (List.mem_cons_self it rest)).inWindow r a b rec hb).2
      calc optT (some rec) ⊓ bestT rest r a b ≤ optT (some rec) := inf_le_left
        _ ≤ (b : WithTop ℚ) := WithTop.coe_le_coe.mpr hle

theorem bestT_eq_top_iff (r : Ray) (a b : ℚ) (l : List Item) :
    bestT l r a b = ⊤ ↔ ∀ it ∈ l, it.hitF r a b = none := by
  induction l with
  | nil => simp [bestT_nil]
  | cons it rest ih =>
    rw [bestT_cons]
    constructor
    · intro h
      have hx : optT (it.hitF r a b) = ⊤ := top_le_iff.mp (by rw [← h]; exact inf_le_left)
      have hy : bestT rest r a b = ⊤ := top_le_iff.mp (by rw [← h]; exact inf_le_right)
      intro x hx2
      rcases List.mem_cons.mp hx2 with rfl | hmem
      · exact (optT_eq_top_iff _).mp hx
      · exact (ih.mp hy) x hmem
    · intro h
      rw [(optT_eq_top_iff _).mpr (h it (List.mem_cons_self it rest)), top_inf_eq]
      exact ih.mpr (fun x hx => h x (List.mem_cons_of_mem it hx))

/-- The list intersector computes exactly the minimal hit parameter. -/
theorem listHit_optT (r : Ray) (a : ℚ) :
    ∀ (l : List Item), (∀ it ∈ l, NearestHit it) → ∀ b : ℚ,
      optT (listHitItems l r a b) = bestT l r a b := by
  intro l
  induction l with
  | nil => intro _ b; rw [bestT_nil]; rfl
  | cons it rest ih =>
    intro hNH b
    have hNHit := hNH it (List.mem_cons_self it rest)
    have hNHr : ∀ x ∈ rest, NearestHit x := fun x hx => hNH x (List.mem_cons_of_mem it hx)
    rw [listHit_cons, bestT_cons]
    cases hb : it.hitF r a b with
    | none =>
      show optT (listHitItems rest r a b) = optT none ⊓ bestT rest r a b
      rw [show optT none = (⊤ : WithTop ℚ) from rfl, top_inf_eq]
      exact ih hNHr b
    | some recl =>
      have hwin := hNHit.inWindow r a b recl hb
      have hrest : optT (listHitItems rest r a recl.t) = trunc recl.t (bestT rest r a b) := by
        rw [ih hNHr recl.t, bestT_window r a rest hNHr b recl.t hwin.2]
      show optT (match listHitItems rest r a recl.t with
            | some recr => some recr
            | none => some recl) = optT (some recl) ⊓ bestT rest r a b
      cases hr : listHitItems rest r a recl.t with
      | some recr =>
        rw [hr] at hrest
        show optT (some recr) = optT (some recl) ⊓ bestT rest r a b
        unfold trunc at hrest
        by_cases hle : bestT rest r a b ≤ (recl.t : WithTop ℚ)
        · rw [if_pos hle] at hrest
          rw [hrest]
          exact (inf_eq_right.mpr hle).symm
        · rw [if_neg hle] at hrest
          exact absurd ((optT_eq_top_iff _).mp hrest) (by simp)
      | none =>
        rw [hr] at hrest
        show optT (some recl) = optT (some recl) ⊓ bestT rest r a b
        unfold trunc at hrest
        by_cases hle : bestT rest r a b ≤ (recl.t : WithTop ℚ)
        · rw [if_pos hle] at hrest
          rw [show optT none = (⊤ : WithTop ℚ) from rfl] at hrest
          rw [← hrest] at hle
          exact absurd (top_le_iff.mp hle) WithTop.coe_ne_top
        · exact (inf_eq_left.mpr (le_of_lt (not_le.mp hle))).symm

/-- Every record the list intersector returns is some member's full-window
hit. -/
theorem listHit_mem (r : Ray) (a : ℚ) :
    ∀ (l : List Item), (∀ it ∈ l, NearestHit it) → ∀ (b : ℚ) (rec : HitRecord),
      listHitItems l r a b = some rec → ∃ it ∈ l, it.hitF r a b = some rec := by
  intro l
  induction l with
  | nil => intro _ b rec h; exact absurd h (by simp [listHitItems])
  | cons it rest ih =>
    intro hNH b rec h
    have hNHit := hNH it (List.mem_cons_self it rest)
    have hNHr : ∀ x ∈ rest, NearestHit x := fun x hx => hNH x (List.mem_cons_of_mem it hx)
    rw [listHit_cons] at h
    cases hb : it.hitF r a b with
    | none =>
      simp only [hb] at h
      obtain ⟨x, hx, hhit⟩ := ih hNHr b rec h
      exact ⟨x, List.mem_cons_of_mem it hx, hhit⟩
    | some recl =>
      simp only [hb] at h
      have hwin := hNHit.inWindow r a b recl hb
      cases hr : listHitItems rest r a recl.t with
      | some recr =>
        simp only [hr] at h
        obtain ⟨x, hx, hhit⟩ := ih hNHr recl.t recr hr
        refine ⟨x, List.mem_cons_of_mem it hx, ?_⟩
        rw [← h]
        exact (hNHr x hx).expand r a b recl.t recr hwin.2 hhit
      | none =>
        simp only [hr] at h
        exact ⟨it, List.mem_cons_self it rest, by rw [← h]; exact hb⟩

theorem V3.leq_refl (a : V3) : V3.leq a a := ⟨le_refl _, le_refl _, le_refl _⟩

theorem V3.leq_trans {a b c : V3} (h1 : V3.leq a b) (h2 : V3.leq b c) : V3.leq a c :=
  ⟨le_trans h1.1 h2.1, le_trans h1.2.1 h2.2.1, le_trans h1.2.2 h2.2.2⟩

theorem BoundingBox.subset_refl (a : BoundingBox) : a.subset a :=
  ⟨V3.leq_refl _, V3.leq_refl _⟩

theorem BoundingBox.subset_trans {a b c : BoundingBox} (h1 : a.subset b)
    (h2 : b.subset c) : a.subset c :=
  ⟨V3.leq_trans h2.1 h1.1, V3.leq_trans h1.2 h2.2⟩

theorem BoundingBox.inside_of_subset {a b : BoundingBox} {p : V3} (hs : a.subset b)
    (hp : a.inside p) : b.inside p :=
  ⟨V3.leq_trans hp.1 hs.2, V3.leq_trans hs.1 hp.2⟩

theorem BoundingBox.subset_union_left (a b : BoundingBox) : a.subset (a.union b) :=
  ⟨⟨min_le_left _ _, min_le_left _ _, min_le_left _ _⟩,
   ⟨le_max_left _ _, le_max_left _ _, le_max_left _ _⟩⟩

theorem BoundingBox.subset_union_right (a b : BoundingBox) : b.subset (a.union b) :=
  ⟨⟨min_le_right _ _, min_le_right _ _, min_le_right _ _⟩,
   ⟨le_max_right _ _, le_max_right _ _, le_max_right _ _⟩⟩

theorem foldl_union_subset_acc :
    ∀ (bs : List BoundingBox) (acc : BoundingBox),
      acc.subset (bs.foldl BoundingBox.union acc) := by
  intro bs
  induction bs with
  | nil => intro acc; exact BoundingBox.subset_refl acc
  | cons c rest ih =>
    intro acc
    rw [List.foldl_cons]
    exact BoundingBox.subset_trans (BoundingBox.subset_union_left acc c) (ih (acc.union c))

theorem mem_subset_foldl_union :
    ∀ (bs : List BoundingBox) (acc B : BoundingBox), B ∈ bs →
      B.subset (bs.foldl BoundingBox.union acc) := by
  intro bs
  induction bs with
  | nil => intro acc B h; exact absurd h (List.not_mem_nil B)
  | cons c rest ih =>
    intro acc B h
    rw [List.foldl_cons]
    rcases List.mem_cons.mp h with rfl | hmem
    · exact BoundingBox.subset_trans (BoundingBox.subset_union_right acc B)
        (foldl_union_subset_acc rest (acc.union B))
    · exact ih (acc.union c) B hmem

/-- `reduce` with `union` covers every constituent box. -/
theorem reduceUnion_covers {bs : List BoundingBox} {B : BoundingBox} (hB : B ∈ bs) :
    ∃ C, reduceUnion bs = some C ∧ B.subset C := by
  cases bs with
  | nil => exact absurd hB (List.not_mem_nil B)
  | cons b0 rest =>
    refine ⟨rest.foldl BoundingBox.union b0, rfl, ?_⟩
    rcases List.mem_cons.mp hB with rfl | hmem
    · exact foldl_union_subset_acc rest B
    · exact mem_subset_foldl_union rest b0 B hmem

theorem itemBoxSound_none {it : Item} (h : itemBoxSound it) (hb : it.bbox = none) :
    ∀ r a b, it.hitF r a b = none := by
  unfold itemBoxSound at h
  rw [hb] at h
  exact h

theorem itemBoxSound_some {it : Item} {B : BoundingBox} (h : itemBoxSound it)
    (hb : it.bbox = some B) :
    ∀ r a b rec, it.hitF r a b = some rec → B.inside (r.at rec.t) := by
  unfold itemBoxSound at h
  rw [hb] at h
  exact h

/-- One branchless slab update keeps a finite window around any parameter
whose point lies between the two slab planes. -/
theorem slabStep_inside (o mn mx t d p q : ℚ) (hp : p ≤ t) (hq : t ≤ q)
    (h1 : mn ≤ o + t * d) (h2 : o + t * d ≤ mx) :
    ∃ p2 q2,
      slabStep o mn mx (if d = 0 then F32.pinf else F32.fin d⁻¹) (F32.fin p, F32.fin q) =
        (F32.fin p2, F32.fin q2) ∧ p2 ≤ t ∧ t ≤ q2 := by
  by_cases hd : d = 0
  · subst hd
    rw [mul_zero, add_zero] at h1 h2
    refine ⟨p, q, ?_, hp, hq⟩
    rw [if_pos rfl]
    rcases lt_or_eq_of_le h1 with hlt1 | heq1
    · have ht0 : F32.mul (F32.fin (mn - o)) F32.pinf = F32.ninf := by
        simp only [F32.mul]
        rw [if_neg (by linarith), if_pos (by linarith)]
      rcases lt_or_eq_of_le h2 with hlt2 | heq2
      · have ht1 : F32.mul (F32.fin (mx - o)) F32.pinf = F32.pinf := by
          simp only [F32.mul]
          rw [if_pos (by linarith)]
        simp only [slabStep, ht0, ht1, F32.rmin, F32.rmax, inf_idem, sup_idem, min_self, max_self]
      · have ht1 : F32.mul (F32.fin (mx - o)) F32.pinf = F32.nan := by
          simp only [F32.mul]
          rw [if_neg (by linarith), if_neg (by linarith)]
        simp only [slabStep, ht0, ht1, F32.rmin, F32.rmax, inf_idem, sup_idem, min_self, max_self]
    · have ht0 : F32.mul (F32.fin (mn - o)) F32.pinf = F32.nan := by
        simp only [F32.mul]
        rw [if_neg (by linarith), if_neg (by linarith)]
      rcases lt_or_eq_of_le h2 with hlt2 | heq2
      · have ht1 : F32.mul (F32.fin (mx - o)) F32.pinf = F32.pinf := by
          simp only [F32.mul]
          rw [if_pos (by linarith)]
        simp only [slabStep, ht0, ht1, F32.rmin, F32.rmax, inf_idem, sup_idem, min_self, max_self]
      · have ht1 : F32.mul (F32.fin (mx - o)) F32.pinf = F32.nan := by
          simp only [F32.mul]
          rw [if_neg (by linarith), if_neg (by linarith)]
        simp only [slabStep, ht0, ht1, F32.rmin, F32.rmax, inf_idem, sup_idem, min_self, max_self]
  · rw [if_neg hd]
    refine ⟨min (max p ((mn - o) * d⁻¹)) (max p ((mx - o) * d⁻¹)),
            max (min q ((mn - o) * d⁻¹)) (min q ((mx - o) * d⁻¹)), ?_, ?_, ?_⟩
    · simp only [slabStep, F32.mul, F32.rmax, F32.rmin]
    · rcases lt_or_gt_of_ne hd with hneg | hpos
      · have hq1t : (mx - o) * d⁻¹ ≤ t := by
          rw [← div_eq_mul_inv, div_le_iff_of_neg hneg]
          linarith
        calc min (max p ((mn - o) * d⁻¹)) (max p ((mx - o) * d⁻¹))
            ≤ max p ((mx - o) * d⁻¹) := min_le_right _ _
          _ ≤ t := max_le hp hq1t
      · have hq0t : (mn - o) * d⁻¹ ≤ t := by
          rw [← div_eq_mul_inv, div_le_iff₀ hpos]
          linarith
        calc min (max p ((mn - o) * d⁻¹)) (max p ((mx - o) * d⁻¹))
            ≤ max p ((mn - o) * d⁻¹) := min_le_left _ _
          _ ≤ t := max_le hp hq0t
    · rcases lt_or_gt_of_ne hd with hneg | hpos
      · have htq0 : t ≤ (mn - o) * d⁻¹ := by
          rw [← div_eq_mul_inv, le_div_iff_of_neg hneg]
          linarith
        exact le_trans (le_min hq htq0) (le_max_left _ _)
      · have htq1 : t ≤ (mx - o) * d⁻¹ := by
          rw [← div_eq_mul_inv, le_div_iff₀ hpos]
          linarith
        exact le_trans (le_min hq htq1) (le_max_right _ _)

/-- The branchless box test accepts every window that brackets a parameter
whose point is inside the box. -/
theorem hit_with_inv_of_inside (C : BoundingBox) (r : Ray) (t a b : ℚ)
    (hat : a ≤ t) (htb : t ≤ b) (hin : C.inside (r.at t)) :
    hit_with_inv C r (recipV r.direction) a b := by
  obtain ⟨hmax, hmin⟩ := hin
  obtain ⟨hx1, hy1, hz1⟩ := hmax
  obtain ⟨hx2, hy2, hz2⟩ := hmin
  obtain ⟨p1, q1, he1, hp1, hq1⟩ :=
    slabStep_inside r.origin.x C.min.x C.max.x t r.direction.x a b hat htb hx2 hx1
  obtain ⟨p2, q2, he2, hp2, hq2⟩ :=
    slabStep_inside r.origin.y C.min.y C.max.y t r.direction.y p1 q1 hp1 hq1 hy2 hy1
  obtain ⟨p3, q3, he3, hp3, hq3⟩ :=
    slabStep_inside r.origin.z C.min.z C.max.z t r.direction.z p2 q2 hp2 hq2 hz2 hz1
  show F32.fle
    (slabStep r.origin.z C.min.z C.max.z (recipV r.direction).z
      (slabStep r.origin.y C.min.y C.max.y (recipV r.direction).y
        (slabStep r.origin.x C.min.x C.max.x (recipV r.direction).x
          (F32.fin a, F32.fin b)))).1
    (slabStep r.origin.z C.min.z C.max.z (recipV r.direction).z
      (slabStep r.origin.y C.min.y C.max.y (recipV r.direction).y
        (slabStep r.origin.x C.min.x C.max.x (recipV r.direction).x
          (F32.fin a, F32.fin b)))).2
  rw [show (recipV r.direction).x =
        (if r.direction.x = 0 then F32.pinf else F32.fin r.direction.x⁻¹) from rfl,
      show (recipV r.direction).y =
        (if r.direction.y = 0 then F32.pinf else F32.fin r.direction.y⁻¹) from rfl,
      show (recipV r.direction).z =
        (if r.direction.z = 0 then F32.pinf else F32.fin r.direction.z⁻¹) from rfl,
      he1, he2, he3]
  exact hp3.trans hq3

/-- A rejected node bbox certifies that no covered item hits in the window. -/
theorem prune_sound {bb : Option BoundingBox} {items : List Item} (r : Ray) (a b : ℚ)
    (hcov : coversItems bb items)
    (hBS : ∀ it ∈ items, itemBoxSound it)
    (hNH : ∀ it ∈ items, NearestHit it)
    (hrej : bboxRejects bb r (recipV r.direction) a b) :
    ∀ it ∈ items, it.hitF r a b = none := by
  intro it hmem
  cases hit : it.hitF r a b with
  | none => rfl
  | some rec =>
    exfalso
    have hbs := hBS it hmem
    cases hbox : it.bbox with
    | none =>
      exact Option.noConfusion (hit.symm.trans (itemBoxSound_none hbs hbox r a b))
    | some B =>
      have hin : B.inside (r.at rec.t) := itemBoxSound_some hbs hbox r a b rec hit
      obtain ⟨C, hbbC, hsub⟩ := hcov it hmem B hbox
      rw [hbbC] at hrej
      have hwin := (hNH it hmem).inWindow r a b rec hit
      exact hrej (hit_with_inv_of_inside C r rec.t a b hwin.1 hwin.2
        (BoundingBox.inside_of_subset hsub hin))

/-- The traversal computes exactly the minimal hit parameter of the items
below, on every window. -/
theorem hitImpl_optT (r : Ray) :
    ∀ tr : Tre, treWF tr → (∀ it ∈ treItems tr, NearestHit it) →
      (∀ it ∈ treItems tr, itemBoxSound it) → ∀ a b : ℚ,
      optT (hitImpl r (recipV r.direction) tr a b) = bestT (treItems tr) r a b := by
  intro tr
  induction tr with
  | leaf bb items =>
    intro hWF hNH hBS a b
    simp only [hitImpl]
    by_cases hrej : bboxRejects bb r (recipV r.direction) a b
    · rw [if_pos hrej]
      have hall := prune_sound r a b hWF hBS hNH hrej
      exact ((bestT_eq_top_iff r a b items).mpr hall).symm
    · rw [if_neg hrej]
      exact listHit_optT r a items hNH b
  | interior bb lt rt ihl ihr =>
    intro hWF hNH hBS a b
    obtain ⟨hcov, hWFl, hWFr⟩ := hWF
    have hNHl : ∀ it ∈ treItems lt, NearestHit it :=
      fun it h => hNH it (List.mem_append_left _ h)
    have hNHr2 : ∀ it ∈ treItems rt, NearestHit it :=
      fun it h => hNH it (List.mem_append_right _ h)
    have hBSl : ∀ it ∈ treItems lt, itemBoxSound it :=
      fun it h => hBS it (List.mem_append_left _ h)
    have hBSr : ∀ it ∈ treItems rt, itemBoxSound it :=
      fun it h => hBS it (List.mem_append_right _ h)
    simp only [hitImpl]
    by_cases hrej : bboxRejects bb r (recipV r.direction) a b
    · rw [if_pos hrej]
      have hall := prune_sound r a b hcov hBS hNH hrej
      exact ((bestT_eq_top_iff r a b _).mpr hall).symm
    · rw [if_neg hrej]
      have hL := ihl hWFl hNHl hBSl a b
      show optT (match hitImpl r (recipV r.direction) rt a
            (match hitImpl r (recipV r.direction) lt a b with
             | some rec => rec.t
             | none => b) with
           | some right_hit => some right_hit
           | none => hitImpl r (recipV r.direction) lt a b) =
        bestT (treItems lt ++ treItems rt) r a b
      rw [bestT_append]
      cases hl : hitImpl r (recipV r.direction) lt a b with
      | none =>
        rw [hl] at hL
        have hR := ihr hWFr hNHr2 hBSr a b
        cases hr2 : hitImpl r (recipV r.direction) rt a b with
        | none =>
          rw [hr2] at hR
          rw [← hL, ← hR]
          simp [optT]
        | some rh =>
          rw [hr2] at hR
          rw [← hL, ← hR]
          simp [optT]
      | some recl =>
        rw [hl] at hL
        have hltb : (recl.t : WithTop ℚ) ≤ (b : WithTop ℚ) := by
          rcases bestT_le r a b (treItems lt) hNHl with htop | hle
          · rw [← hL] at htop
            exact absurd ((optT_eq_top_iff _).mp htop) (by simp)
          · rw [← hL] at hle
            exact hle
        have htb : recl.t ≤ b := WithTop.coe_le_coe.mp hltb
        have hRw : optT (hitImpl r (recipV r.direction) rt a recl.t) =
            trunc recl.t (bestT (treItems rt) r a b) := by
          rw [ihr hWFr hNHr2 hBSr a recl.t,
              bestT_window r a (treItems rt) hNHr2 b recl.t htb]
        rw [← hL]
        cases hr2 : hitImpl r (recipV r.direction) rt a recl.t with
        | some rh =>
          rw [hr2] at hRw
          show optT (some rh) = optT (some recl) ⊓ bestT (treItems rt) r a b
          unfold trunc at hRw
          by_cases hle : bestT (treItems rt) r a b ≤ (recl.t : WithTop ℚ)
          · rw [if_pos hle] at hRw
            rw [hRw]
            exact (inf_eq_right.mpr hle).symm
          · rw [if_neg hle] at hRw
            exact absurd ((optT_eq_top_iff _).mp hRw) (by simp)
        | none =>
          rw [hr2] at hRw
          show optT (some recl) = optT (some recl) ⊓ bestT (treItems rt) r a b
          unfold trunc at hRw
          by_cases hle : bestT (treItems rt) r a b ≤ (recl.t : WithTop ℚ)
          · rw [if_pos hle] at hRw
            rw [show optT none = (⊤ : WithTop ℚ) from rfl] at hRw
            rw [← hRw] at hle
            exact absurd (top_le_iff.mp hle) WithTop.coe_ne_top
          · exact (inf_eq_left.mpr (le_of_lt (not_le.mp hle))).symm

/-- Every record the traversal returns is some stored item's full-window
hit. -/
theorem hitImpl_mem (r : Ray) (inv : V3F) :
    ∀ tr : Tre, (∀ it ∈ treItems tr, NearestHit it) → ∀ (a b : ℚ) (rec : HitRecord),
      hitImpl r inv tr a b = some rec → ∃ it ∈ treItems tr, it.hitF r a b = some rec := by
  intro tr
  induction tr with
  | leaf bb items =>
    intro hNH a b rec h
    simp only [hitImpl] at h
    by_cases hrej : bboxRejects bb r inv a b
    · rw [if_pos hrej] at h
      exact absurd h (by simp)
    · rw [if_neg hrej] at h
      exact listHit_mem r a items hNH b rec h
  | interior bb lt rt ihl ihr =>
    intro hNH a b rec h
    have hNHl : ∀ it ∈ treItems lt, NearestHit it :=
      fun it hm => hNH it (List.mem_append_left _ hm)
    have hNHr2 : ∀ it ∈ treItems rt, NearestHit it :=
      fun it hm => hNH it (List.mem_append_right _ hm)
    simp only [hitImpl] at h
    by_cases hrej : bboxRejects bb r inv a b
    · rw [if_pos hrej] at h
      exact absurd h (by simp)
    · rw [if_neg hrej] at h
      cases hl : hitImpl r inv lt a b with
      | none =>
        simp only [hl] at h
        cases hr2 : hitImpl r inv rt a b with
        | none =>
          simp only [hr2] at h
          exact absurd h (by simp)
        | some rh =>
          simp only [hr2] at h
          obtain ⟨x, hx, hhit⟩ := ihr hNHr2 a b rh hr2
          exact ⟨x, List.mem_append_right _ hx, by rw [← h]; exact hhit⟩
      | some recl =>
        simp only [hl] at h
        obtain ⟨xl, hxl, hhitl⟩ := ihl hNHl a b recl hl
        have htb : recl.t ≤ b := ((hNHl xl hxl).inWindow r a b recl hhitl).2
        cases hr2 : hitImpl r inv rt a recl.t with
        | none =>
          simp only [hr2] at h
          exact ⟨xl, List.mem_append_left _ hxl, by rw [← h]; exact hhitl⟩
        | some rh =>
          simp only [hr2] at h
          obtain ⟨x, hx, hhit⟩ := ihr hNHr2 a recl.t rh hr2
          exact ⟨x, List.mem_append_right _ hx,
            by rw [← h]; exact (hNHr2 x hx).expand r a b recl.t rh htb hhit⟩

theorem partition_sub {p : ItemInfo → Bool} {infos l r : List ItemInfo}
    (h : infos.partition p = (l, r)) :
    (l ++ r).Perm infos ∧ (∀ x ∈ l, x ∈ infos) ∧ (∀ x ∈ r, x ∈ infos) := by
  rw [List.partition_eq_filter_filter] at h
  injection h with h1 h2
  subst h1
  subst h2
  exact ⟨List.filter_append_perm p infos,
    fun x hx => List.mem_of_mem_filter hx,
    fun x hx => List.mem_of_mem_filter hx⟩

/-- Inversion of the build step on a split decision: the total bbox is the
reduced union of the declared boxes, and the two sides are a partition of
the input (hence a permutation of it when appended, with members drawn from
it). -/
theorem buildStep_split {infos : List ItemInfo} {total : BoundingBox}
    {l r : List ItemInfo} (h : buildStep infos = BuildDecision.split total l r) :
    reduceUnion (infos.filterMap ItemInfo.bbox) = some total ∧
    (l ++ r).Perm infos ∧ (∀ x ∈ l, x ∈ infos) ∧ (∀ x ∈ r, x ∈ infos) := by
  unfold buildStep at h
  by_cases hlen : infos.length ≤ 4
  · rw [if_pos hlen] at h
    exact absurd h (by simp)
  · rw [if_neg hlen] at h
    cases hred : reduceUnion (infos.filterMap ItemInfo.bbox) with
    | none =>
      simp only [hred] at h
      exact BuildDecision.noConfusion h
    | some total2 =>
      simp only [hred] at h
      injection h with h1 h2 h3
      subst h1
      refine ⟨rfl, ?_⟩
      by_cases hc : F32.flt (minCostOf (binsOf infos total2) total2)
          (F32.fin (infos.length : ℚ))
      · rw [if_pos hc] at h2 h3
        have hpart : infos.partition (sahPredB (centroidBoxOf infos) total2.longest_axis
            (minPairOf (binsOf infos total2)).1) = (l, r) := by
          rw [← h2, ← h3]
        exact partition_sub hpart
      · rw [if_neg hc] at h2 h3
        have hpart : infos.partition (maxPredB (centroidBoxOf infos) total2.longest_axis
            (maxBinIdxOf (binsOf infos total2))) = (l, r) := by
          rw [← h2, ← h3]
        exact partition_sub hpart

theorem mkInfo_bbox (items : List Item) :
    ∀ info ∈ items.map mkInfo, info.bbox = info.item.bbox := by
  intro info hinfo
  obtain ⟨it, _, rfl⟩ := List.mem_map.mp hinfo
  rfl

theorem map_item_mkInfo (items : List Item) :
    (items.map mkInfo).map ItemInfo.item = items := by
  rw [List.map_map]
  exact List.map_id'' (fun x => rfl) items

/-- A successful fuelled build yields a tree whose leaves hold exactly the
input items (as a permutation) and whose every node bbox covers the declared
boxes of all items below it. -/
theorem buildFuel_wf :
    ∀ (fuel : ℕ) (infos : List ItemInfo) (tr : Tre),
      (∀ info ∈ infos, info.bbox = info.item.bbox) →
      buildFuel fuel infos = some tr →
      (treItems tr).Perm (infos.map ItemInfo.item) ∧ treWF tr := by
  intro fuel
  induction fuel with
  | zero => intro infos tr _ h; exact absurd h (by simp [buildFuel])
  | succ n ih =>
    intro infos tr hbb h
    rw [buildFuel] at h
    cases hstep : buildStep infos with
    | leaf =>
      simp only [hstep] at h
      have htr : newLeaf infos = tr := Option.some.inj h
      subst htr
      constructor
      · exact List.Perm.refl _
      · intro it hmem B hB
        obtain ⟨info, hinfo, hitem⟩ := List.mem_map.mp hmem
        have hib : info.bbox = some B := by rw [hbb info hinfo, hitem, hB]
        exact reduceUnion_covers (List.mem_filterMap.mpr ⟨info, hinfo, hib⟩)
    | split total l r =>
      simp only [hstep] at h
      obtain ⟨hred, hperm, hsubl, hsubr⟩ := buildStep_split hstep
      cases hbl : buildFuel n l with
      | none =>
        simp only [hbl] at h
        exact absurd h (by simp [combineChildren])
      | some lt =>
        cases hbr : buildFuel n r with
        | none =>
          simp only [hbl, hbr] at h
          exact absurd h (by simp [combineChildren])
        | some rt =>
          simp only [hbl, hbr, combineChildren] at h
          have htr : Tre.interior (some total) lt rt = tr := Option.some.inj h
          subst htr
          obtain ⟨hpl, hwl⟩ := ih l lt (fun x hx => hbb x (hsubl x hx)) hbl
          obtain ⟨hpr, hwr⟩ := ih r rt (fun x hx => hbb x (hsubr x hx)) hbr
          constructor
          · exact (hpl.append hpr).trans
              (by rw [← List.map_append]; exact hperm.map ItemInfo.item)
          · refine ⟨?_, hwl, hwr⟩
            intro it hmem B hB
            refine ⟨total, rfl, ?_⟩
            have hmem2 : it ∈ infos.map ItemInfo.item := by
              have h3 : it ∈ (treItems lt ++ treItems rt) := hmem
              have h4 := ((hpl.append hpr).mem_iff).mp h3
              rw [← List.map_append] at h4
              exact ((hperm.map ItemInfo.item).mem_iff).mp h4
            obtain ⟨info, hinfo, hitem⟩ := List.mem_map.mp hmem2
            have hib : info.bbox = some B := by rw [hbb info hinfo, hitem, hB]
            obtain ⟨C, hC, hsub⟩ := reduceUnion_covers
              (List.mem_filterMap.mpr ⟨info, hinfo, hib⟩)
            rw [hred] at hC
            cases Option.some.inj hC
            exact hsub

/-- C1 — amended: for every scene of nearest-hit hittables whose hits stay
inside their declared bounding boxes, and every successfully built tree, the
traversal and the linear list intersector agree on every query window: the
hit parameter `t` coincides (in particular both miss together), and the full
records — primitive identity, `front_face` and all — coincide whenever the
minimal `t` determines the hit record uniquely.  (The tie counterexample
shows the uniqueness proviso is necessary: on a tie the two intersectors can
return different primitives with the same `t`.) -/
theorem c1_amended (fuel : ℕ) (items : List Item) (tr : Tre)
    (hbuild : treeNew fuel items = some tr)
    (hNH : ∀ it ∈ items, NearestHit it)
    (hBS : ∀ it ∈ items, itemBoxSound it)
    (r : Ray) (a b : ℚ) :
    optT (treeHit tr r a b) = optT (listHitItems items r a b) ∧
    (treeHit tr r a b = none ↔ listHitItems items r a b = none) ∧
    ((∀ it1 ∈ items, ∀ it2 ∈ items, ∀ rc1 rc2 : HitRecord,
        it1.hitF r a b = some rc1 → it2.hitF r a b = some rc2 →
        rc1.t = rc2.t → rc1 = rc2) →
      treeHit tr r a b = listHitItems items r a b) := by
  obtain ⟨hperm, hWF⟩ := buildFuel_wf fuel (items.map mkInfo) tr (mkInfo_bbox items) hbuild
  have hperm2 : (treItems tr).Perm items := by
    rw [map_item_mkInfo items] at hperm
    exact hperm
  have hNHt : ∀ it ∈ treItems tr, NearestHit it :=
    fun it h => hNH it (hperm2.mem_iff.mp h)
  have hBSt : ∀ it ∈ treItems tr, itemBoxSound it :=
    fun it h => hBS it (hperm2.mem_iff.mp h)
  have h1 : optT (treeHit tr r a b) = optT (listHitItems items r a b) := by
    calc optT (treeHit tr r a b) = bestT (treItems tr) r a b :=
          hitImpl_optT r tr hWF hNHt hBSt a b
      _ = bestT items r a b := bestT_perm hperm2 r a b
      _ = optT (listHitItems items r a b) := (listHit_optT r a items hNH b).symm
  refine ⟨h1, ⟨?_, ?_⟩, ?_⟩
  · intro h
    have h2 : optT (listHitItems items r a b) = ⊤ := by rw [← h1, h]; rfl
    exact (optT_eq_top_iff _).mp h2
  · intro h
    have h2 : optT (treeHit tr r a b) = ⊤ := by rw [h1, h]; rfl
    exact (optT_eq_top_iff _).mp h2
  · intro huniq
    cases htr : treeHit tr r a b with
    | none =>
      have h2 : optT (listHitItems items r a b) = ⊤ := by rw [← h1, htr]; rfl
      exact ((optT_eq_top_iff _).mp h2).symm
    | some x =>
      cases hlst : listHitItems items r a b with
      | none =>
        have h2 : optT (treeHit tr r a b) = ⊤ := by rw [h1, hlst]; rfl
        rw [htr] at h2
        exact absurd ((optT_eq_top_iff _).mp h2) (by simp)
      | some y =>
        obtain ⟨it1, hm1, hh1⟩ := hitImpl_mem r (recipV r.direction) tr hNHt a b x htr
        obtain ⟨it2, hm2, hh2⟩ := listHit_mem r a items hNH b y hlst
        have hty : x.t = y.t := by
          have h3 : optT (some x) = optT (some y) := by rw [← htr, ← hlst]; exact h1
          exact WithTop.coe_inj.mp h3
        rw [huniq it1 (hperm2.mem_iff.mp hm1) it2 hm2 x y hh1 hh2 hty]

/-- A hittable that never hits and declares no bbox (the empty list member
used as the simplest instance of the contract). -/
def noHitItem : Item := ⟨fun _ _ _ => none, none⟩

theorem noHitItem_nearest : NearestHit noHitItem :=
  ⟨fun _ _ _ _ h => (nomatch h),
   fun _ _ _ _ _ h _ _ => (nomatch h),
   fun _ _ _ _ _ _ => rfl,
   fun _ _ _ _ _ h _ _ => (nomatch h)⟩

theorem noHitItem_boxSound : itemBoxSound noHitItem := fun _ _ _ => rfl

/-- C1 — amended, witnessed at a concrete build: the one-item scene builds a
leaf and the two intersectors agree on the window `[0, 1]`. -/
theorem c1_amended_witness :
    optT (treeHit (Tre.leaf none [noHitItem]) exRay 0 1) =
      optT (listHitItems [noHitItem] exRay 0 1) :=
  (c1_amended 1 [noHitItem] (Tre.leaf none [noHitItem]) (by with_unfolding_all rfl)
    (by intro it hmem; rw [List.mem_singleton] at hmem; rw [hmem]; exact noHitItem_nearest)
    (by intro it hmem; rw [List.mem_singleton] at hmem; rw [hmem]; exact noHitItem_boxSound)
    exRay 0 1).1

end Lustre
